import Mathlib

/-!
Verification of the GoMerkle repository (package `merkletree`): a shallow
embedding of the byte/hex codec (`bytes.go`), the hashing scheme
(`hashes.go`), the flat-array Merkle tree core (`core.go`) and the
tree-preparation front end (`core.go` / `options.go`), together with
theorems settling the frozen specification claims.

Modelling conventions:
- Go strings and byte slices are byte sequences; both are modelled as
  `List Nat` (`GoString`), each element a byte value.  Byte values are
  below 256 wherever the Go code produces them.
- Go `int` values used as tree indices are modelled as `Nat` (they are
  never negative in the embedded code paths; `ParentIndex`/`SiblingIndex`
  guard `i > 0` exactly as the source does).
- Keccak-256 is modelled as an abstract hash parameter
  `k : List Nat → List Nat`; every property proved here depends only on
  the byte sequence fed to the hash, never on its internal structure.
- An out-of-bounds Go slice access panics; a code path that can panic is
  modelled with an outer `Option`, where `none` is the panic.
- Fallible Go functions returning `error` are modelled with `Except
  MerkleError`; distinct sentinel errors of `errors.go` keep distinct
  constructors, and all wrapped conversion errors (`fmt.Errorf` around
  `ToHex`/`ToBytes` failures) are collapsed to `.conversionError`.
-/

deriving instance DecidableEq for Except

namespace GoMerkle

/-- A Go string / byte slice: a sequence of byte values. -/
abbrev GoString := List Nat

/-- ASCII codes: '0' = 48, '9' = 57, 'A' = 65, 'F' = 70, 'a' = 97,
'f' = 102, 'x' = 120. -/
def isHexDigitByte (c : Nat) : Bool :=
  (48 ≤ c && c ≤ 57) || (97 ≤ c && c ≤ 102) || (65 ≤ c && c ≤ 70)

/-- Value of a hex digit character (ASCII byte). -/
def hexDigitVal (c : Nat) : Nat :=
  if c ≤ 57 then c - 48 else if c ≤ 70 then c - 55 else c - 87

/-- Model of Go `hex.DecodeString`: fails on an odd-length input or a
non-hex character, otherwise decodes consecutive digit pairs. -/
def hexDecode : GoString → Option (List Nat)
  | [] => some []
  | [_] => none
  | c1 :: c2 :: rest =>
    if isHexDigitByte c1 && isHexDigitByte c2 then
      match hexDecode rest with
      | some bs => some ((16 * hexDigitVal c1 + hexDigitVal c2) :: bs)
      | none => none
    else none

/-- Lowercase hex character for a digit value below 16. -/
def toHexCharLower (d : Nat) : Nat :=
  if d < 10 then 48 + d else 87 + d

/-- Model of Go `hex.EncodeToString`: two lowercase digits per byte. -/
def hexEncode (bs : List Nat) : GoString :=
  bs.flatMap (fun b => [toHexCharLower (b / 16), toHexCharLower (b % 16)])

/-- Whether a byte string starts with the two characters "0x". -/
def startsWith0x : GoString → Bool
  | 48 :: 120 :: _ => true
  | _ => false

/-- Model of Go `strings.TrimPrefix(s, "0x")`. -/
def trimPrefix0x (s : GoString) : GoString :=
  if startsWith0x s then s.drop 2 else s

/-- Model of `big.Int.SetString(s, 16)` on a hex string: the big-endian
value of the digits.  The Go code ignores the failure flag, and a fresh
`big.Int` stays 0 when parsing fails (e.g. on the empty string), which
this fold reproduces on the inputs the code reaches (all-digit strings
or the empty string). -/
def hexToNat (s : GoString) : Nat :=
  s.foldl (fun acc c => 16 * acc + hexDigitVal c) 0

/-- Big-endian integer value of a byte sequence. -/
def beNat (bs : List Nat) : Nat :=
  bs.foldl (fun acc b => 256 * acc + b) 0

/-- The Go interface type `BytesLike = interface{}` restricted to the
cases `ToBytes`/`ToHex` distinguish: `[]byte`, `HexString`, `string`,
`[]int`, and every other runtime type collapsed to `unsupported`. -/
inductive BytesLike where
  | bytes (b : List Nat)
  | hexString (s : GoString)
  | str (s : GoString)
  | ints (l : List Int)
  | unsupported
deriving DecidableEq, Repr

/-- `ToBytes` of `bytes.go`: `[]byte` is returned as is; a (hex)string
with prefix "0x" is hex-decoded, without the prefix it is returned as
its raw bytes; `[]int` is truncated elementwise to bytes; any other
type is an error (`none`). -/
def ToBytes : BytesLike → Option (List Nat)
  | .bytes b => some b
  | .hexString s =>
    -- the source recurses to the `string` case; inlined here
    if startsWith0x s then hexDecode (s.drop 2)
    else some s
  | .str s =>
    if startsWith0x s then hexDecode (s.drop 2)
    else some s
  | .ints l => some (l.map (fun n => (n % 256).toNat))
  | .unsupported => none

/-- `ToHex` of `bytes.go`: a (hex)string must hex-decode after trimming
an optional "0x" prefix and is returned with the prefix re-attached and
the body unchanged; `[]byte` and `[]int` are hex-encoded lowercase. -/
def ToHex : BytesLike → Option GoString
  | .hexString s =>
    -- the `string, HexString` cases of the source type switch coincide
    match hexDecode (trimPrefix0x s) with
    | some _ => some (48 :: 120 :: trimPrefix0x s)
    | none => none
  | .str s =>
    match hexDecode (trimPrefix0x s) with
    | some _ => some (48 :: 120 :: trimPrefix0x s)
    | none => none
  | .bytes b => some (48 :: 120 :: hexEncode b)
  | .ints l =>
    match ToBytes (.ints l) with
    | some bs => some (48 :: 120 :: hexEncode bs)
    | none => none
  | .unsupported => none

/-- `Concat` of `bytes.go`: byte-concatenation of the converted
operands, failing if any conversion fails. -/
def Concat : List BytesLike → Option (List Nat)
  | [] => some []
  | v :: rest =>
    match ToBytes v, Concat rest with
    | some bs, some bs' => some (bs ++ bs')
    | _, _ => none

/-- `Compare` of `bytes.go`: both operands are converted with `ToHex`,
their hex bodies are read as big integers, and `big.Int.Cmp` returns
-1, 0 or 1. -/
def Compare (a b : BytesLike) : Option Int :=
  match ToHex a, ToHex b with
  | some aHex, some bHex =>
    let av := hexToNat (aHex.drop 2)
    let bv := hexToNat (bHex.drop 2)
    some (if av < bv then -1 else if bv < av then 1 else 0)
  | _, _ => none

/-! ## Hashing scheme (`hashes.go`) -/

/-- The argument domain of `abiEncodePacked` (`hashes.go`): Go passes an
`interface{}`; the type switch accepts strings, byte slices and the
eight fixed-width integer types, and rejects everything else
(`unsupported`). -/
inductive PackArg where
  | str (s : GoString)
  | bytes (b : List Nat)
  | u8 (n : Nat) | u16 (n : Nat) | u32 (n : Nat) | u64 (n : Nat)
  | i8 (n : Int) | i16 (n : Int) | i32 (n : Int) | i64 (n : Int)
  | unsupported
deriving DecidableEq, Repr

/-- Go byte truncation of a signed integer: the low 8 bits of the
two's-complement value. -/
def intToByte (z : Int) : Nat := (z % 256).toNat

/-- Go arithmetic right shift of a signed integer. -/
def sar (z : Int) (k : Nat) : Int := Int.fdiv z (2 ^ (k : Nat))

/-- `uintToBytes` of `hashes.go`: big-endian minimal-width bytes for
each fixed-width integer type.  Unsigned values are reduced mod 256 per
byte exactly as Go's `byte(v >> s)` conversions do. -/
def uintToBytes : PackArg → List Nat
  | .u8 n => [n % 256]
  | .u16 n => [n / 2 ^ 8 % 256, n % 256]
  | .u32 n => [n / 2 ^ 24 % 256, n / 2 ^ 16 % 256, n / 2 ^ 8 % 256, n % 256]
  | .u64 n => [n / 2 ^ 56 % 256, n / 2 ^ 48 % 256, n / 2 ^ 40 % 256, n / 2 ^ 32 % 256,
               n / 2 ^ 24 % 256, n / 2 ^ 16 % 256, n / 2 ^ 8 % 256, n % 256]
  | .i8 n => [intToByte n]
  | .i16 n => [intToByte (sar n 8), intToByte n]
  | .i32 n => [intToByte (sar n 24), intToByte (sar n 16), intToByte (sar n 8), intToByte n]
  | .i64 n => [intToByte (sar n 56), intToByte (sar n 48), intToByte (sar n 40),
               intToByte (sar n 32), intToByte (sar n 24), intToByte (sar n 16),
               intToByte (sar n 8), intToByte n]
  | _ => []

/-- `abiEncodePacked` of `hashes.go`: concatenate the packed encodings
of the arguments; fail on an unsupported argument type. -/
def abiEncodePacked : List PackArg → Option (List Nat)
  | [] => some []
  | arg :: rest =>
    match arg with
    | .unsupported => none
    | .str s =>
      match abiEncodePacked rest with
      | some bs => some (s ++ bs)
      | none => none
    | .bytes b =>
      match abiEncodePacked rest with
      | some bs => some (b ++ bs)
      | none => none
    | other =>
      match abiEncodePacked rest with
      | some bs => some (uintToBytes other ++ bs)
      | none => none

/-- `keccak256HashedData` of `hashes.go`, with Keccak-256 abstracted as
the hash parameter `k`. -/
def keccak256HashedData (k : List Nat → List Nat) (args : List PackArg) : Option (List Nat) :=
  match abiEncodePacked args with
  | some encodedData => some (k encodedData)
  | none => none

/-- `StandardLeafHash` of `hashes.go`: hash the packed encoding of the
value; on any internal error return the empty hash string. -/
def StandardLeafHash (k : List Nat → List Nat) (value : PackArg) : GoString :=
  match keccak256HashedData k [value] with
  | none => []
  | some encodedPacked =>
    match ToHex (.bytes encodedPacked) with
    | none => []
    | some h => h

/-- The comparison closure passed to `sort.Slice` in `hashes.go` and
`core.go`: `Compare` result below zero, with a comparison error read as
false. -/
def goLess (a b : BytesLike) : Bool :=
  match Compare a b with
  | some r => r < 0
  | none => false

/-- Go `sort.Slice` on the two-element slice `[a, b]` swaps the
elements exactly when `less(1, 0)` holds, i.e. when `b` compares below
`a`. -/
def sortPairGo (a b : BytesLike) : BytesLike × BytesLike :=
  if goLess b a then (b, a) else (a, b)

/-- `StandardNodeHash` of `hashes.go`: sort the two children with
`Compare`, concatenate, hash; on any internal error return the empty
hash string.  Keccak-256 is the abstract parameter `k`. -/
def StandardNodeHash (k : List Nat → List Nat) (a b : BytesLike) : GoString :=
  let nodes := sortPairGo a b
  match Concat [nodes.1, nodes.2] with
  | none => []
  | some concatenated =>
    match keccak256HashedData k [.bytes concatenated] with
    | none => []
    | some hashed =>
      match ToHex (.bytes hashed) with
      | none => []
      | some h => h

/-! ## Errors (`errors.go`) and core types (`core.go`) -/

/-- The sentinel errors of `errors.go` that the embedded code paths can
surface, plus `conversionError` for every wrapped `ToHex`/`ToBytes`
failure built with `fmt.Errorf`. -/
inductive MerkleError where
  | emptyTree
  | invalidNode
  | notLeafNode
  | invalidMultiProof
  | invalidIndex
  | conversionError
deriving DecidableEq, Repr

/-- The `NodeHash` function type of `hashes.go`. -/
abbrev NodeHash := BytesLike → BytesLike → GoString

/-- `MultiProof` of `core.go`. -/
structure MultiProof where
  leaves : List GoString
  proof : List GoString
  proofFlags : List Bool
deriving DecidableEq, Repr

/-- `LeftChildIndex` of `core.go`. -/
def LeftChildIndex (i : Nat) : Nat := 2 * i + 1

/-- `RightChildIndex` of `core.go`. -/
def RightChildIndex (i : Nat) : Nat := 2 * i + 2

/-- `ParentIndex` of `core.go`.  The source computes
`math.Floor((float64(i)-1)/2)`, which is the exact floor of `(i-1)/2`
on every index a tree can have (float64 is exact below 2^53); Nat
division expresses that floor.  For `i = 0` the source returns 0. -/
def ParentIndex (i : Nat) : Nat :=
  if i > 0 then (i - 1) / 2 else 0

/-- `SiblingIndex` of `core.go`.  The source computes
`i - int(math.Pow(-1, float64(i%2)))`; `math.Pow(-1, 0) = 1` and
`math.Pow(-1, 1) = -1` exactly, so this is `i - 1` for even `i` and
`i + 1` for odd `i`.  For `i = 0` the source returns 0. -/
def SiblingIndex (i : Nat) : Nat :=
  if i > 0 then (if i % 2 = 0 then i - 1 else i + 1) else 0

/-- `IsTreeNode` of `core.go` (indices are naturals here, so only the
upper bound remains). -/
def IsTreeNode (tree : List BytesLike) (i : Nat) : Bool :=
  i < tree.length

/-- `IsInternalNode` of `core.go`. -/
def IsInternalNode (tree : List BytesLike) (i : Nat) : Bool :=
  IsTreeNode tree (LeftChildIndex i)

/-- `IsLeafNode` of `core.go`. -/
def IsLeafNode (tree : List BytesLike) (i : Nat) : Bool :=
  IsTreeNode tree i && !IsInternalNode tree i

/-- `IsValidMerkleNode` of `core.go`: the node converts to exactly 32
bytes. -/
def IsValidMerkleNode (node : BytesLike) : Bool :=
  match ToBytes node with
  | some bytes => bytes.length == 32
  | none => false

/-- `CheckValidMerkleNode` of `core.go`. -/
def CheckValidMerkleNode (node : BytesLike) : Except MerkleError Unit :=
  if IsValidMerkleNode node then .ok () else .error .invalidNode

/-! ## Tree construction (`MakeMerkleTree`) -/

/-- The internal-node loop of `MakeMerkleTree`: fill positions `i`,
`i-1`, ..., `0` with `nodeHash` of the two children.  The children of
every processed position lie strictly above it and are already final;
`getD` stands for Go's (in-bounds, by construction) slice indexing. -/
def fillInternal (nodeHash : NodeHash) (tree : List GoString) (i : Nat) : List GoString :=
  let t := tree.set i (nodeHash (.hexString (tree.getD (LeftChildIndex i) []))
                                (.hexString (tree.getD (RightChildIndex i) [])))
  match i with
  | 0 => t
  | j + 1 => fillInternal nodeHash t j

/-- The pure tree construction of `MakeMerkleTree`, after the leaf
hashes have been converted: a `2n-1` array with the leaves at the last
`n` positions and the internal nodes filled from `n-2` down to 0.  The
Go loop starts at `len(tree)-len(leaves)-1 = n-2`, which is negative
(loop body never runs) exactly when `n = 1`. -/
def buildFromLeaves (nodeHash : NodeHash) (leaves : List GoString) : List GoString :=
  let n := leaves.length
  let tree := List.replicate (n - 1) ([] : GoString) ++ leaves
  if n < 2 then tree
  else fillInternal nodeHash tree (n - 2)

/-- `MakeMerkleTree` of `core.go`: empty input fails with
`ErrEmptyTree`; the leaf hashes are converted with `ToHex` (a failure
is the wrapped conversion error) and the flat tree is built from
them. -/
def MakeMerkleTree (hashes : List BytesLike) (nodeHash : NodeHash) :
    Except MerkleError (List GoString) :=
  if hashes.isEmpty then .error .emptyTree
  else
    match hashes.mapM ToHex with
    | none => .error .conversionError
    | some leaves => .ok (buildFromLeaves nodeHash leaves)

/-! ## Single proofs (`GetProof`, `ProcessProof`) -/

/-- The proof-collection loop of `GetProof`: while the index is
positive, append the hex form of the sibling and step to the parent.
An out-of-bounds sibling access is a Go panic (`none`). -/
def getProofLoop (tree : List BytesLike) (index : Nat) :
    Option (Except MerkleError (List GoString)) :=
  if h : index = 0 then some (.ok [])
  else
    match tree.get? (SiblingIndex index) with
    | none => none
    | some sib =>
      match ToHex sib with
      | none => some (.error .conversionError)
      | some value =>
        match getProofLoop tree (ParentIndex index) with
        | none => none
        | some (.error e) => some (.error e)
        | some (.ok rest) => some (.ok (value :: rest))
termination_by index
decreasing_by
  simp only [ParentIndex, gt_iff_lt, Nat.pos_iff_ne_zero.mpr h, if_true]
  omega

/-- `GetProof` of `core.go`: the index must name a leaf
(`ErrNotLeafNode` otherwise), then the sibling walk collects the proof
bottom-up. -/
def GetProof (tree : List BytesLike) (index : Nat) :
    Option (Except MerkleError (List GoString)) :=
  if IsLeafNode tree index then getProofLoop tree index
  else some (.error .notLeafNode)

/-- The reduction loop of `ProcessProof`: fold `nodeHash` left-to-right
over the accumulated result and each (hex-converted) proof element. -/
def processFold (nodeHash : NodeHash) (result : GoString) :
    List BytesLike → Except MerkleError GoString
  | [] => .ok result
  | sibling :: rest =>
    match ToHex sibling with
    | none => .error .conversionError
    | some siblingHex =>
      processFold nodeHash (nodeHash (.hexString result) (.hexString siblingHex)) rest

/-- `ProcessProof` of `core.go`: validate the leaf and every proof
element as 32-byte nodes, then fold `nodeHash` over them and return the
hex form of the result. -/
def ProcessProof (leaf : BytesLike) (proof : List BytesLike) (nodeHash : NodeHash) :
    Except MerkleError GoString :=
  if !IsValidMerkleNode leaf then .error .invalidNode
  else if !(proof.all IsValidMerkleNode) then .error .invalidNode
  else
    match ToHex leaf with
    | none => .error .conversionError
    | some result0 =>
      match processFold nodeHash result0 proof with
      | .error e => .error e
      | .ok result =>
        match ToHex (.hexString result) with
        | none => .error .conversionError
        | some resultHex => .ok resultHex

/-! ## Multiproofs (`GetMultiProof`, `ProcessMultiProof`) -/

/-- The queue walk of `GetMultiProof`.  While the FIFO queue is
non-empty and its front index is positive: pop `j`; if the new front is
the sibling of `j`, record a `true` flag and pop it too, otherwise
record a `false` flag and emit `tree[s]` (a panic — `none` — when `s`
is out of bounds); push the parent of `j`.  Besides the proof and the
flags, the value of the Go `stack` variable at loop exit is returned,
so that theorems can speak about how the walk ended; `GetMultiProof`
itself discards it. -/
def getMultiProofLoop (tree : List BytesLike) (stack : List Nat) :
    Option (Except MerkleError (List GoString × List Bool × List Nat)) :=
  match stack with
  | [] => some (.ok ([], [], []))
  | j :: rest =>
    if hj : j = 0 then some (.ok ([], [], j :: rest))
    else
      let s := SiblingIndex j
      let p := ParentIndex j
      if hs : rest.head? = some s then
        match getMultiProofLoop tree (rest.tail ++ [p]) with
        | none => none
        | some (.error e) => some (.error e)
        | some (.ok (proof, proofFlags, final)) =>
          some (.ok (proof, true :: proofFlags, final))
      else
        match tree.get? s with
        | none => none
        | some sNode =>
          match ToHex sNode with
          | none => some (.error .conversionError)
          | some proofVal =>
            match getMultiProofLoop tree (rest ++ [p]) with
            | none => none
            | some (.error e) => some (.error e)
            | some (.ok (proof, proofFlags, final)) =>
              some (.ok (proofVal :: proof, false :: proofFlags, final))
termination_by (stack.sum, stack.length)
decreasing_by
  · cases rest with
    | nil => simp at hs
    | cons r rs =>
      simp only [List.head?_cons, Option.some.injEq] at hs
      simp only [List.tail_cons, List.sum_append, List.sum_cons, List.length_append,
        List.length_cons, List.sum_nil, List.length_nil]
      have hp : ParentIndex j < j := by
        simp only [ParentIndex, gt_iff_lt, Nat.pos_iff_ne_zero.mpr hj, if_true]
        omega
      exact Prod.Lex.left _ _ (by omega)
  · simp only [List.sum_append, List.sum_cons, List.length_append, List.length_cons,
      List.sum_nil, List.length_nil]
    have hp : ParentIndex j < j := by
      simp only [ParentIndex, gt_iff_lt, Nat.pos_iff_ne_zero.mpr hj, if_true]
      omega
    exact Prod.Lex.left _ _ (by omega)

/-- The leaf-collection loop of `GetMultiProof`: `tree[idx]` (panic
when out of bounds) converted with `ToHex` for each requested index. -/
def multiLeaves (tree : List BytesLike) : List Nat → Option (Except MerkleError (List GoString))
  | [] => some (.ok [])
  | idx :: rest =>
    match tree.get? idx with
    | none => none
    | some v =>
      match ToHex v with
      | none => some (.error .conversionError)
      | some leafHex =>
        match multiLeaves tree rest with
        | none => none
        | some (.error e) => some (.error e)
        | some (.ok hs) => some (.ok (leafHex :: hs))

/-- `GetMultiProof` of `core.go`: an empty index list fails with
`ErrEmptyTree`; otherwise run the queue walk, then collect the leaf
hashes of the requested indices in their original order. -/
def GetMultiProof (tree : List BytesLike) (indices : List Nat) :
    Option (Except MerkleError MultiProof) :=
  if indices.isEmpty then some (.error .emptyTree)
  else
    match getMultiProofLoop tree indices with
    | none => none
    | some (.error e) => some (.error e)
    | some (.ok (proof, proofFlags, _)) =>
      match multiLeaves tree indices with
      | none => none
      | some (.error e) => some (.error e)
      | some (.ok leavesHex) =>
        some (.ok ⟨leavesHex, proof, proofFlags⟩)

/-- The reconstruction loop of `ProcessMultiProof`, driven by the flag
list: pop `a` from the results queue, pop `b` from the results queue
(flag true) or the side-proof queue (flag false), push
`nodeHash(a, b)`; any empty pop is `ErrInvalidMultiProof`.  Returns the
two final queues. -/
def processMultiLoop (nodeHash : NodeHash) :
    List Bool → List GoString → List GoString →
    Except MerkleError (List GoString × List GoString)
  | [], stack, proof => .ok (stack, proof)
  | flag :: flags, stack, proof =>
    match stack with
    | [] => .error .invalidMultiProof
    | a :: stackRest =>
      if flag then
        match stackRest with
        | [] => .error .invalidMultiProof
        | b :: stackRest' =>
          match ToHex (.hexString a), ToHex (.hexString b) with
          | some leafA, some leafB =>
            processMultiLoop nodeHash flags
              (stackRest' ++ [nodeHash (.hexString leafA) (.hexString leafB)]) proof
          | _, _ => .error .conversionError
      else
        match proof with
        | [] => .error .invalidMultiProof
        | b :: proofRest =>
          match ToHex (.hexString a), ToHex (.hexString b) with
          | some leafA, some leafB =>
            processMultiLoop nodeHash flags
              (stackRest ++ [nodeHash (.hexString leafA) (.hexString leafB)]) proofRest
          | _, _ => .error .conversionError

/-- `ProcessMultiProof` of `core.go`: run the reconstruction loop over
the flags; afterwards exactly one value must remain across the two
queues and it is the computed root. -/
def ProcessMultiProof (multiproof : MultiProof) (nodeHash : NodeHash) :
    Except MerkleError GoString :=
  match processMultiLoop nodeHash multiproof.proofFlags multiproof.leaves multiproof.proof with
  | .error e => .error e
  | .ok (stack, proof) =>
    if stack.length + proof.length ≠ 1 then .error .invalidMultiProof
    else
      match stack with
      | root :: _ => .ok root
      | [] =>
        match proof with
        | root :: _ => .ok root
        | [] => .error .invalidMultiProof

/-! ## Options and tree preparation (`options.go`, `PrepareMerkleTree`) -/

/-- `MerkleTreeOptions` of `options.go`. -/
structure MerkleTreeOptions where
  SortLeaves : Bool
deriving DecidableEq, Repr

/-- The anonymous per-value record built inside `PrepareMerkleTree`. -/
structure HashedValue (T : Type) where
  value : T
  valueIndex : Nat
  hash : GoString

/-- Insertion of one element into a slice ordered by a strict `less`
function: the element goes in front of the first position it is not
preceded by. -/
def insertLess {α : Type} (less : α → α → Bool) (x : α) : List α → List α
  | [] => [x]
  | y :: ys => if less y x then y :: insertLess less x ys else x :: y :: ys

/-- Model of Go `sort.Slice` with comparison `less`: Go guarantees the
result is a permutation of the input with no later element `less` than
an earlier one, and every theorem below depends on the output only
through that contract (under their hypotheses the ordered permutation
is unique), so a concrete insertion sort stands in for the
unspecified, unstable library algorithm. -/
def sortSlice {α : Type} (less : α → α → Bool) (l : List α) : List α :=
  l.foldr (insertLess less) []

/-- The index-assignment loop of `PrepareMerkleTree`: place each hashed
value's final tree position at its original value index.  The Go slice
is zero-initialised and every slot is overwritten (the value indices
are a permutation), so the initial list contents are immaterial; the
source's `correctedIndex` bounds check is kept (its negative half
cannot fire on naturals). -/
def assignIndexed {T : Type} (treeLen n : Nat) :
    List (Nat × HashedValue T) → List (T × Nat) →
    Except MerkleError (List (T × Nat))
  | [], acc => .ok acc
  | (leafIndex, hv) :: rest, acc =>
    let correctedIndex := treeLen - n + leafIndex
    if treeLen ≤ correctedIndex then .error .invalidIndex
    else assignIndexed treeLen n rest (acc.set hv.valueIndex (hv.value, correctedIndex))

/-- `PrepareMerkleTree` of `core.go`: hash every value with its
original position, optionally sort by `Compare` on the hash, build the
tree from the (sorted) hashes, and record each value's final tree
index.  The source substitutes `StandardNodeHash` for a nil `nodeHash`
argument; the Go-specific nil check is not modelled and `nodeHash` is
taken as given (the spec maps the default to an explicit parameter). -/
def PrepareMerkleTree {T : Type} (values : List T) (options : MerkleTreeOptions)
    (leafHash : T → GoString) (nodeHash : NodeHash) :
    Except MerkleError (List GoString × List (T × Nat)) :=
  let hashedValues := (List.range values.length).zip values |>.map
    (fun iv => HashedValue.mk iv.2 iv.1 (leafHash iv.2))
  let sorted :=
    if options.SortLeaves then
      sortSlice (fun a b => goLess (.hexString a.hash) (.hexString b.hash)) hashedValues
    else hashedValues
  let hashes : List BytesLike := sorted.map (fun hv => .hexString hv.hash)
  match MakeMerkleTree hashes nodeHash with
  | .error e => .error e
  | .ok tree =>
    let base : List (T × Nat) := values.map (fun v => (v, 0))
    match assignIndexed tree.length sorted.length
        ((List.range sorted.length).zip sorted) base with
    | .error e => .error e
    | .ok indexedValues => .ok (tree, indexedValues)

/-! ## Canonical-node predicates and supporting lemmas -/

/-- A canonical 32-byte node string: "0x" followed by a hex body that
decodes to exactly 32 bytes.  Every hash the library itself produces
has this shape. -/
def Canonical32 (s : GoString) : Bool :=
  startsWith0x s &&
    match hexDecode (s.drop 2) with
    | some bs => bs.length == 32
    | none => false

/-- A node-hash function suitable for tree building: symmetric in its
arguments and always producing a canonical 32-byte node (as
`StandardNodeHash` does on valid nodes). -/
def GoodNodeHash (nodeHash : NodeHash) : Prop :=
  (∀ a b, nodeHash a b = nodeHash b a) ∧ (∀ a b, Canonical32 (nodeHash a b) = true)

/-- A lowercase hex digit character. -/
def isLowerHexDigit (c : Nat) : Bool :=
  (48 ≤ c && c ≤ 57) || (97 ≤ c && c ≤ 102)

/-- A "0x"-prefixed all-lowercase hex string. -/
def IsLowerHex0x (s : GoString) : Bool :=
  startsWith0x s && (s.drop 2).all isLowerHexDigit

/-- A canonical lowercase node string of exactly 64 hex characters. -/
def Canonical64Lower (s : GoString) : Bool :=
  startsWith0x s && (s.drop 2).length == 64 && (s.drop 2).all isLowerHexDigit

/-- A byte-like value whose two readings agree: `ToHex` succeeds and
the big-integer value of its hex body (what `Compare` orders by)
equals the big-endian value of its `ToBytes` bytes (what the tree
actually hashes).  Raw byte slices and "0x"-prefixed hex strings have
this property; a raw text string that happens to parse as hex does
not. -/
def HexByteConsistent (x : BytesLike) : Bool :=
  match ToHex x, ToBytes x with
  | some h, some bs => hexToNat (h.drop 2) == beNat bs && bs.all (· < 256)
  | _, _ => false

/-- Sample canonical node: "0x" followed by 64 copies of '1'. -/
def sampleHash1 : GoString := 48 :: 120 :: List.replicate 64 49

/-- Sample canonical node: "0x" followed by 64 copies of '2'. -/
def sampleHash2 : GoString := 48 :: 120 :: List.replicate 64 50

/-- Sample canonical node: "0x" followed by 64 copies of '0'. -/
def zeros64 : GoString := 48 :: 120 :: List.replicate 64 48

/-- A degenerate but well-behaved node-hash function used to exercise
the generic theorems at concrete inputs: constant, hence symmetric,
with a canonical 32-byte output. -/
def constNodeHash : NodeHash := fun _ _ => zeros64

/-- A seven-node sample tree of canonical values, used to exercise the
multiproof walk at concrete inputs. -/
def sampleTree7 : List BytesLike :=
  [.hexString zeros64, .hexString zeros64, .hexString zeros64,
   .hexString sampleHash1, .hexString sampleHash2,
   .hexString sampleHash1, .hexString sampleHash2]

/-- Sample leaf-hash function on naturals for exercising
`PrepareMerkleTree` at concrete inputs. -/
def sampleLeafHash : Nat → GoString :=
  fun v => if v = 1 then sampleHash2 else sampleHash1

/-- A tree array in which every internal node (a node with its right
child in bounds) equals `nodeHash` of its two children — the invariant
`MakeMerkleTree` establishes and the proof walks rely on. -/
def TreeCorrect (nodeHash : NodeHash) (tree : List GoString) : Prop :=
  ∀ i, RightChildIndex i < tree.length → tree.get? i =
    some (nodeHash (.hexString (tree.getD (LeftChildIndex i) []))
                   (.hexString (tree.getD (RightChildIndex i) [])))

/-- A leaf-hash input whose hex form is a canonical 32-byte node — the
shape every hash produced by the library's own hashing has. -/
def CanonicalHashInput (x : BytesLike) : Bool :=
  match ToHex x with
  | some s => Canonical32 s
  | none => false

theorem startsWith0x_shape {s : GoString} (h : startsWith0x s = true) :
    s = 48 :: 120 :: s.drop 2 := by
  match s, h with
  | 48 :: 120 :: rest, _ => rfl

theorem canonical32_shape {s : GoString} (h : Canonical32 s = true) :
    s = 48 :: 120 :: s.drop 2 := by
  have hs : startsWith0x s = true := by
    simp only [Canonical32, Bool.and_eq_true] at h
    exact h.1
  exact startsWith0x_shape hs

theorem canonical32_decode {s : GoString} (h : Canonical32 s = true) :
    ∃ bs, hexDecode (s.drop 2) = some bs ∧ bs.length = 32 := by
  simp only [Canonical32, Bool.and_eq_true] at h
  obtain ⟨-, h2⟩ := h
  cases hd : hexDecode (s.drop 2) with
  | none => rw [hd] at h2; simp at h2
  | some bs => rw [hd] at h2; simp at h2; exact ⟨bs, rfl, h2⟩

theorem trimPrefix0x_of_canonical {s : GoString} (h : Canonical32 s = true) :
    trimPrefix0x s = s.drop 2 := by
  simp only [Canonical32, Bool.and_eq_true] at h
  simp [trimPrefix0x, h.1]

/-- `ToHex` is the identity on canonical node strings. -/
theorem toHex_hexString_of_canonical {s : GoString} (h : Canonical32 s = true) :
    ToHex (.hexString s) = some s := by
  obtain ⟨bs, hd, -⟩ := canonical32_decode h
  simp only [ToHex, trimPrefix0x_of_canonical h, hd]
  exact congrArg some (canonical32_shape h).symm

/-- A canonical node string is a valid 32-byte Merkle node. -/
theorem isValidMerkleNode_of_canonical {s : GoString} (h : Canonical32 s = true) :
    IsValidMerkleNode (.hexString s) = true := by
  obtain ⟨bs, hd, hlen⟩ := canonical32_decode h
  have hs : startsWith0x s = true := by
    simp only [Canonical32, Bool.and_eq_true] at h
    exact h.1
  simp [IsValidMerkleNode, ToBytes, hs, hd, hlen]

/-! ## Structure of the built tree -/

theorem fillInternal_length (nodeHash : NodeHash) (t : List GoString) (i : Nat) :
    (fillInternal nodeHash t i).length = t.length := by
  induction i generalizing t with
  | zero => simp [fillInternal]
  | succ j ih => simp [fillInternal, ih]

theorem fillInternal_get?_of_gt (nodeHash : NodeHash) (t : List GoString) (i j : Nat)
    (h : i < j) : (fillInternal nodeHash t i).get? j = t.get? j := by
  induction i generalizing t with
  | zero =>
    simp only [fillInternal]
    exact List.get?_set_ne _ _ (by omega)
  | succ i ih =>
    simp only [fillInternal]
    rw [ih _ (by omega)]
    exact List.get?_set_ne _ _ (by omega)

theorem fillInternal_spec (nodeHash : NodeHash) (t : List GoString) (i : Nat)
    (hbound : 2 * i + 2 < t.length) :
    ∀ j ≤ i, (fillInternal nodeHash t i).get? j =
      some (nodeHash
        (.hexString ((fillInternal nodeHash t i).getD (LeftChildIndex j) []))
        (.hexString ((fillInternal nodeHash t i).getD (RightChildIndex j) []))) := by
  induction i generalizing t with
  | zero =>
    intro j hj
    interval_cases j
    simp only [fillInternal, LeftChildIndex, RightChildIndex]
    have h0 : (0 : Nat) < t.length := by omega
    rw [List.get?_set_eq_of_lt _ h0]
    have h1 : (t.set 0 (nodeHash (.hexString (t.getD (2 * 0 + 1) []))
        (.hexString (t.getD (2 * 0 + 2) [])))).getD (2 * 0 + 1) [] = t.getD (2 * 0 + 1) [] := by
      show ((t.set 0 _).get? (2 * 0 + 1)).getD [] = (t.get? (2 * 0 + 1)).getD []
      rw [List.get?_set_ne _ _ (by omega)]
    have h2 : (t.set 0 (nodeHash (.hexString (t.getD (2 * 0 + 1) []))
        (.hexString (t.getD (2 * 0 + 2) [])))).getD (2 * 0 + 2) [] = t.getD (2 * 0 + 2) [] := by
      show ((t.set 0 _).get? (2 * 0 + 2)).getD [] = (t.get? (2 * 0 + 2)).getD []
      rw [List.get?_set_ne _ _ (by omega)]
    rw [h1, h2]
  | succ i ih =>
    intro j hj
    have hstep : fillInternal nodeHash t (i + 1) =
        fillInternal nodeHash (t.set (i + 1) (nodeHash
          (.hexString (t.getD (LeftChildIndex (i + 1)) []))
          (.hexString (t.getD (RightChildIndex (i + 1)) [])))) i := by
      simp [fillInternal]
    set t' := t.set (i + 1) (nodeHash
      (.hexString (t.getD (LeftChildIndex (i + 1)) []))
      (.hexString (t.getD (RightChildIndex (i + 1)) []))) with ht'
    rw [hstep]
    rcases Nat.lt_or_ge j (i + 1) with hji | hji
    · have hb : 2 * i + 2 < t'.length := by
        rw [ht']; simp only [List.length_set]; omega
      exact ih _ hb j (by omega)
    · have hj' : j = i + 1 := by omega
      subst hj'
      rw [fillInternal_get?_of_gt _ _ _ _ (by omega)]
      rw [ht', List.get?_set_eq_of_lt _ (by omega)]
      have hleft : (fillInternal nodeHash t' i).getD (LeftChildIndex (i + 1)) [] =
          t.getD (LeftChildIndex (i + 1)) [] := by
        show ((fillInternal nodeHash t' i).get? (LeftChildIndex (i + 1))).getD [] =
          (t.get? (LeftChildIndex (i + 1))).getD []
        rw [fillInternal_get?_of_gt _ _ _ _ (by simp only [LeftChildIndex]; omega)]
        rw [ht', List.get?_set_ne _ _ (by simp only [LeftChildIndex]; omega)]
      have hright : (fillInternal nodeHash t' i).getD (RightChildIndex (i + 1)) [] =
          t.getD (RightChildIndex (i + 1)) [] := by
        show ((fillInternal nodeHash t' i).get? (RightChildIndex (i + 1))).getD [] =
          (t.get? (RightChildIndex (i + 1))).getD []
        rw [fillInternal_get?_of_gt _ _ _ _ (by simp only [RightChildIndex]; omega)]
        rw [ht', List.get?_set_ne _ _ (by simp only [RightChildIndex]; omega)]
      rw [hleft, hright]

theorem buildFromLeaves_length (nodeHash : NodeHash) (leaves : List GoString) :
    (buildFromLeaves nodeHash leaves).length = 2 * leaves.length - 1 := by
  unfold buildFromLeaves
  by_cases h : leaves.length < 2
  · simp only [h, if_true, List.length_append, List.length_replicate]
    omega
  · simp only [h, if_false, fillInternal_length, List.length_append, List.length_replicate]
    omega

theorem buildFromLeaves_leaf (nodeHash : NodeHash) (leaves : List GoString) (k : Nat)
    (hk : k < leaves.length) :
    (buildFromLeaves nodeHash leaves).get? (leaves.length - 1 + k) = leaves.get? k := by
  unfold buildFromLeaves
  have hbase : (List.replicate (leaves.length - 1) ([] : GoString) ++ leaves).get?
      (leaves.length - 1 + k) = leaves.get? k := by
    rw [List.get?_append_right (by simp only [List.length_replicate]; omega)]
    simp only [List.length_replicate]
    congr 1
    omega
  by_cases h : leaves.length < 2
  · simp only [h, if_true, hbase]
  · simp only [h, if_false]
    rw [fillInternal_get?_of_gt _ _ _ _ (by omega), hbase]

theorem buildFromLeaves_internal (nodeHash : NodeHash) (leaves : List GoString) (i : Nat)
    (hi : i + 1 < leaves.length) :
    (buildFromLeaves nodeHash leaves).get? i =
      some (nodeHash
        (.hexString ((buildFromLeaves nodeHash leaves).getD (LeftChildIndex i) []))
        (.hexString ((buildFromLeaves nodeHash leaves).getD (RightChildIndex i) []))) := by
  have h2 : ¬ leaves.length < 2 := by omega
  have hb : 2 * (leaves.length - 2) + 2 <
      (List.replicate (leaves.length - 1) ([] : GoString) ++ leaves).length := by
    simp only [List.length_append, List.length_replicate]
    omega
  have := fillInternal_spec nodeHash
    (List.replicate (leaves.length - 1) ([] : GoString) ++ leaves)
    (leaves.length - 2) hb i (by omega)
  unfold buildFromLeaves
  simp only [h2, if_false]
  exact this

/-- Every node of a tree built from canonical leaves by a canonical
node-hash function is canonical. -/
theorem buildFromLeaves_canonical (nodeHash : NodeHash) (leaves : List GoString)
    (hl : ∀ x ∈ leaves, Canonical32 x = true)
    (hnh : ∀ a b, Canonical32 (nodeHash a b) = true) :
    ∀ x ∈ buildFromLeaves nodeHash leaves, Canonical32 x = true := by
  intro x hx
  obtain ⟨j, hj⟩ := List.mem_iff_get?.mp hx
  have hjlen : j < (buildFromLeaves nodeHash leaves).length := by
    by_contra hcon
    rw [List.get?_eq_none.mpr (by omega)] at hj
    exact Option.noConfusion hj
  rw [buildFromLeaves_length] at hjlen
  rcases Nat.lt_or_ge j (leaves.length - 1) with hcase | hcase
  · rw [buildFromLeaves_internal nodeHash leaves j (by omega)] at hj
    have := hnh (.hexString ((buildFromLeaves nodeHash leaves).getD (LeftChildIndex j) []))
      (.hexString ((buildFromLeaves nodeHash leaves).getD (RightChildIndex j) []))
    rw [← Option.some_inj.mp hj]
    exact this
  · have hk : j - (leaves.length - 1) < leaves.length := by omega
    have : (buildFromLeaves nodeHash leaves).get? (leaves.length - 1 + (j - (leaves.length - 1))) =
        leaves.get? (j - (leaves.length - 1)) := buildFromLeaves_leaf nodeHash leaves _ hk
    rw [show leaves.length - 1 + (j - (leaves.length - 1)) = j by omega, hj] at this
    exact hl x (List.mem_iff_get?.mpr ⟨_, this.symm⟩)

/-! ## Positional numerals: fixed-length digit lists are determined by
their value -/

theorem baseFoldl_init (B : Nat) :
    ∀ (l : List Nat) (a : Nat),
      l.foldl (fun acc c => B * acc + c) a =
        a * B ^ l.length + l.foldl (fun acc c => B * acc + c) 0 := by
  intro l
  induction l with
  | nil => intro a; simp
  | cons c t ih =>
    intro a
    have h1 := ih (B * a + c)
    have h2 := ih (B * 0 + c)
    simp only [List.foldl_cons, List.length_cons]
    rw [h1, h2]
    ring

theorem addMulCancel {P c1 c2 r1 r2 : Nat} (h1 : r1 < P) (h2 : r2 < P)
    (he : c1 * P + r1 = c2 * P + r2) : c1 = c2 ∧ r1 = r2 := by
  have hc : c1 = c2 := by
    rcases Nat.lt_trichotomy c1 c2 with h | h | h
    · exfalso
      have hle : (c1 + 1) * P ≤ c2 * P := Nat.mul_le_mul_right P h
      rw [add_one_mul] at hle
      omega
    · exact h
    · exfalso
      have hle : (c2 + 1) * P ≤ c1 * P := Nat.mul_le_mul_right P h
      rw [add_one_mul] at hle
      omega
  subst hc
  exact ⟨rfl, by omega⟩

theorem baseFoldl_lt (B : Nat) (hB : 0 < B) :
    ∀ (l : List Nat), (∀ x ∈ l, x < B) →
      l.foldl (fun acc c => B * acc + c) 0 < B ^ l.length := by
  intro l
  induction l with
  | nil => intro _; simpa using hB
  | cons c t ih =>
    intro hb
    have hc : c < B := hb c (List.mem_cons_self _ _)
    have ht := ih (fun x hx => hb x (List.mem_cons_of_mem _ hx))
    simp only [List.foldl_cons, List.length_cons]
    rw [baseFoldl_init B t (B * 0 + c)]
    have : (B * 0 + c) * B ^ t.length + B ^ t.length ≤ B ^ (t.length + 1) := by
      rw [pow_succ]
      nlinarith
    omega

theorem baseFoldl_inj (B : Nat) (hB : 0 < B) :
    ∀ (l1 l2 : List Nat), l1.length = l2.length →
      (∀ x ∈ l1, x < B) → (∀ x ∈ l2, x < B) →
      l1.foldl (fun acc c => B * acc + c) 0 = l2.foldl (fun acc c => B * acc + c) 0 →
      l1 = l2 := by
  intro l1
  induction l1 with
  | nil =>
    intro l2 hlen _ _ _
    cases l2 with
    | nil => rfl
    | cons c t => simp at hlen
  | cons c1 t1 ih =>
    intro l2 hlen hb1 hb2 hval
    cases l2 with
    | nil => simp at hlen
    | cons c2 t2 =>
      simp only [List.length_cons, Nat.succ.injEq] at hlen
      simp only [List.foldl_cons] at hval
      rw [baseFoldl_init B t1, baseFoldl_init B t2] at hval
      simp only [Nat.mul_zero, Nat.zero_add, hlen] at hval
      have hr1 := baseFoldl_lt B hB t1 (fun x hx => hb1 x (List.mem_cons_of_mem _ hx))
      have hr2 := baseFoldl_lt B hB t2 (fun x hx => hb2 x (List.mem_cons_of_mem _ hx))
      rw [hlen] at hr1
      have hcc := addMulCancel hr1 hr2 hval
      rw [hcc.1, ih t2 hlen (fun x hx => hb1 x (List.mem_cons_of_mem _ hx))
        (fun x hx => hb2 x (List.mem_cons_of_mem _ hx)) hcc.2]

theorem beNat_inj {l1 l2 : List Nat} (hlen : l1.length = l2.length)
    (hb1 : ∀ x ∈ l1, x < 256) (hb2 : ∀ x ∈ l2, x < 256)
    (hval : beNat l1 = beNat l2) : l1 = l2 :=
  baseFoldl_inj 256 (by norm_num) l1 l2 hlen hb1 hb2 hval

/-! ## Claim C7: index arithmetic -/

/-- Claim C7: for every index `i`, `LeftChildIndex i = 2i+1` and
`RightChildIndex i = 2i+2`, and for `i > 0`, `ParentIndex i =
floor((i-1)/2)` and `SiblingIndex i` is `i-1` for even `i` and `i+1`
for odd `i`. -/
theorem claim_C7_index_arithmetic (i : Nat) :
    LeftChildIndex i = 2 * i + 1 ∧ RightChildIndex i = 2 * i + 2 ∧
      (i > 0 → ParentIndex i = (i - 1) / 2 ∧
        SiblingIndex i = (if i % 2 = 0 then i - 1 else i + 1)) := by
  refine ⟨rfl, rfl, fun hi => ⟨?_, ?_⟩⟩
  · simp [ParentIndex, hi]
  · simp [SiblingIndex, hi]

/-- Witness for claim C7 at the concrete index 5. -/
theorem claim_C7_witness :
    LeftChildIndex 5 = 11 ∧ RightChildIndex 5 = 12 ∧
      ParentIndex 5 = 2 ∧ SiblingIndex 5 = 6 := by
  obtain ⟨h1, h2, h3⟩ := claim_C7_index_arithmetic 5
  refine ⟨h1, h2, (h3 (by decide)).1, ?_⟩
  rw [(h3 (by decide)).2]
  decide

/-! ## Claim C9: hashing error swallowing -/

/-- Claim C9: for a value whose type the packed encoder does not
support, `StandardLeafHash` returns the empty hash string instead of
propagating an error, and `StandardNodeHash` likewise returns the
empty string when its internal encoding or conversion fails (here: a
child whose byte conversion fails), whatever the hash function and the
other child. -/
theorem claim_C9_empty_hash_on_error :
    (∀ k : List Nat → List Nat, StandardLeafHash k .unsupported = []) ∧
    (∀ (k : List Nat → List Nat) (b : BytesLike), StandardNodeHash k .unsupported b = []) ∧
    (∀ (k : List Nat → List Nat) (a : BytesLike), StandardNodeHash k a .unsupported = []) := by
  have hConcatR : ∀ a : BytesLike, Concat [a, BytesLike.unsupported] = none := by
    intro a
    cases hta : ToBytes a <;> simp [Concat, hta, ToBytes]
  have hConcatL : ∀ b : BytesLike, Concat [BytesLike.unsupported, b] = none := by
    intro b
    rfl
  refine ⟨fun k => rfl, fun k b => ?_, fun k a => ?_⟩
  · have hless : goLess b BytesLike.unsupported = false := by
      cases htb : ToHex b <;> simp [goLess, Compare, htb, ToHex]
    simp [StandardNodeHash, sortPairGo, hless, hConcatL]
  · have hless : goLess BytesLike.unsupported a = false := by
      cases hta : ToHex a <;> simp [goLess, Compare, hta, ToHex]
    simp [StandardNodeHash, sortPairGo, hless, hConcatR]

/-! ## Claim C8: canonical hex form (corrected) -/

/-- Counterexample to claim C8 as stated: `ToHex` succeeds on the text
"0xAB" and returns it unchanged, which is not lowercase hex. -/
theorem claim_C8_counterexample :
    ToHex (.str [48, 120, 65, 66]) = some [48, 120, 65, 66] ∧
      IsLowerHex0x [48, 120, 65, 66] = false := by
  decide

theorem isLowerHexDigit_toHexCharLower {d : Nat} (h : d < 16) :
    isLowerHexDigit (toHexCharLower d) = true := by
  interval_cases d <;> decide

theorem hexEncode_lower {b : List Nat} (hb : ∀ x ∈ b, x < 256) :
    (hexEncode b).all isLowerHexDigit = true := by
  rw [List.all_eq_true]
  intro c hc
  simp only [hexEncode, List.mem_flatMap] at hc
  obtain ⟨y, hy, hcy⟩ := hc
  have hy256 : y < 256 := hb y hy
  simp only [List.mem_cons, List.mem_singleton] at hcy
  rcases hcy with h | h | h
  · subst h; exact isLowerHexDigit_toHexCharLower (by omega)
  · subst h; exact isLowerHexDigit_toHexCharLower (Nat.mod_lt _ (by omega))
  · simp at h

/-- Claim C8 amended: `ToHex` always returns a "0x"-prefixed string;
for byte sequences and integer sequences the body is lowercase hex,
but for textual input (string or HexString) the body is the input
text after trimming an optional "0x" prefix, with its letter case
preserved — an uppercase hex text therefore stays uppercase. -/
theorem claim_C8_tohex_form :
    (∀ b : List Nat, (∀ x ∈ b, x < 256) →
      ToHex (.bytes b) = some (48 :: 120 :: hexEncode b) ∧
        IsLowerHex0x (48 :: 120 :: hexEncode b) = true) ∧
    (∀ l : List Int, ∃ s, ToHex (.ints l) = some s ∧ IsLowerHex0x s = true) ∧
    (∀ t s, ToHex (.str t) = some s → s = 48 :: 120 :: trimPrefix0x t) ∧
    (∀ t s, ToHex (.hexString t) = some s → s = 48 :: 120 :: trimPrefix0x t) := by
  refine ⟨fun b hb => ⟨rfl, ?_⟩, fun l => ?_, fun t s h => ?_, fun t s h => ?_⟩
  · simp only [IsLowerHex0x, startsWith0x, List.drop_succ_cons, List.drop_zero,
      Bool.true_and]
    exact hexEncode_lower hb
  · refine ⟨48 :: 120 :: hexEncode (l.map (fun n => ((n % 256 : Int)).toNat)), rfl, ?_⟩
    simp only [IsLowerHex0x, startsWith0x, List.drop_succ_cons, List.drop_zero,
      Bool.true_and]
    refine hexEncode_lower ?_
    intro x hx
    simp only [List.mem_map] at hx
    obtain ⟨n, -, hn⟩ := hx
    subst hn
    have h1 : 0 ≤ n % 256 := Int.emod_nonneg n (by norm_num)
    have h2 : n % 256 < 256 := Int.emod_lt_of_pos n (by norm_num)
    omega
  · simp only [ToHex] at h
    cases hd : hexDecode (trimPrefix0x t) with
    | none => rw [hd] at h; exact Option.noConfusion h
    | some bs => rw [hd] at h; exact (Option.some_inj.mp h).symm
  · simp only [ToHex] at h
    cases hd : hexDecode (trimPrefix0x t) with
    | none => rw [hd] at h; exact Option.noConfusion h
    | some bs => rw [hd] at h; exact (Option.some_inj.mp h).symm

/-- Witness for the amended claim C8 at concrete inputs. -/
theorem claim_C8_tohex_form_witness :
    (ToHex (.bytes [255]) = some (48 :: 120 :: hexEncode [255]) ∧
      IsLowerHex0x (48 :: 120 :: hexEncode [255]) = true) ∧
    (∀ s, ToHex (.str [65, 66]) = some s → s = 48 :: 120 :: trimPrefix0x [65, 66]) := by
  exact ⟨claim_C8_tohex_form.1 [255] (by decide),
    fun s => claim_C8_tohex_form.2.2.1 [65, 66] s⟩

/-! ## Claim C6: ProcessProof validation (corrected) -/

/-- Counterexample to claim C6 as stated: a raw 32-character non-hex
string is a valid 32-byte Merkle node, yet `ProcessProof` on it fails
with a hex-conversion error instead of returning the fold. -/
theorem claim_C6_counterexample :
    IsValidMerkleNode (.str (List.replicate 32 122)) = true ∧
      ProcessProof (.str (List.replicate 32 122)) [] (fun _ _ => []) =
        .error .conversionError := by
  exact ⟨by decide, rfl⟩

theorem processFold_eq_foldl (nodeHash : NodeHash) :
    ∀ (proof : List BytesLike) (phs : List GoString) (l0 : GoString),
      proof.mapM ToHex = some phs →
      processFold nodeHash l0 proof =
        .ok (phs.foldl (fun acc h => nodeHash (.hexString acc) (.hexString h)) l0) := by
  intro proof
  induction proof with
  | nil =>
    intro phs l0 h
    simp only [List.mapM_nil, pure, Option.some_inj] at h
    subst h
    rfl
  | cons a rest ih =>
    intro phs l0 h
    rw [List.mapM_cons] at h
    cases hta : ToHex a with
    | none => rw [hta] at h; simp at h
    | some ha =>
      rw [hta] at h
      cases htr : rest.mapM ToHex with
      | none => rw [htr] at h; simp at h
      | some t =>
        rw [htr] at h
        simp only [Option.bind_eq_bind, Option.some_bind, pure, Option.some_inj] at h
        subst h
        simp only [processFold, hta, List.foldl_cons]
        exact ih t _ htr

/-- Claim C6 amended: `ProcessProof` fails with `ErrInvalidNode`
whenever the leaf or some proof element does not decode to exactly 32
bytes; when the leaf and all proof elements are valid 32-byte nodes
AND the hex conversions of the leaf, the proof elements and the folded
result succeed, it returns the hex form of the left-to-right fold of
`nodeHash` over the leaf and the proof elements in order.  (A valid
32-byte node can still fail hex conversion — see the counterexample —
in which case the result is the wrapped conversion error, not the
fold.) -/
theorem claim_C6_processproof :
    (∀ (leaf : BytesLike) (proof : List BytesLike) (nodeHash : NodeHash),
      (IsValidMerkleNode leaf = false ∨ ∃ nd ∈ proof, IsValidMerkleNode nd = false) →
      ProcessProof leaf proof nodeHash = .error .invalidNode) ∧
    (∀ (leaf : BytesLike) (proof : List BytesLike) (nodeHash : NodeHash)
        (l0 r : GoString) (phs : List GoString),
      IsValidMerkleNode leaf = true →
      (∀ nd ∈ proof, IsValidMerkleNode nd = true) →
      ToHex leaf = some l0 →
      proof.mapM ToHex = some phs →
      ToHex (.hexString (phs.foldl
        (fun acc h => nodeHash (.hexString acc) (.hexString h)) l0)) = some r →
      ProcessProof leaf proof nodeHash = .ok r) := by
  constructor
  · intro leaf proof nodeHash hbad
    rcases hbad with hleaf | ⟨nd, hnd, hbadnd⟩
    · simp [ProcessProof, hleaf]
    · by_cases hleaf : IsValidMerkleNode leaf = true
      · have hall : proof.all IsValidMerkleNode = false := by
          rw [Bool.eq_false_iff]
          intro hcon
          rw [List.all_eq_true] at hcon
          rw [hcon nd hnd] at hbadnd
          exact Bool.noConfusion hbadnd
        simp [ProcessProof, hleaf, hall]
      · simp only [Bool.not_eq_true] at hleaf
        simp [ProcessProof, hleaf]
  · intro leaf proof nodeHash l0 r phs hleaf hall htl hmap hres
    have hallb : proof.all IsValidMerkleNode = true := List.all_eq_true.mpr hall
    simp only [ProcessProof, hleaf, hallb, Bool.not_true, Bool.false_eq_true, if_false, htl]
    simp only [processFold_eq_foldl nodeHash proof phs l0 hmap, hres]

/-- Witness for the amended claim C6 at concrete inputs. -/
theorem claim_C6_processproof_witness :
    ProcessProof (.hexString sampleHash1) [.hexString sampleHash2] constNodeHash =
      .ok zeros64 := by
  exact claim_C6_processproof.2 (.hexString sampleHash1) [.hexString sampleHash2]
    constNodeHash sampleHash1 zeros64 [sampleHash2]
    (by decide) (by decide) (by decide) (by decide) (by decide)

/-! ## Claim C4: tree layout and build order -/

/-- Claim C4: for `n ≥ 1` convertible leaf hashes, `MakeMerkleTree`
returns an array of size `2n-1` with the (hex forms of the) leaf
hashes at the last `n` positions, the internal nodes `i < n-1` each
equal to `nodeHash` of their two children, and for an empty input it
fails with `ErrEmptyTree`. -/
theorem claim_C4_tree_layout (hashes : List BytesLike) (leaves : List GoString)
    (nodeHash : NodeHash) (hne : hashes ≠ [])
    (hmap : hashes.mapM ToHex = some leaves) :
    (∃ tree, MakeMerkleTree hashes nodeHash = .ok tree ∧
      tree.length = 2 * leaves.length - 1 ∧
      (∀ k < leaves.length, tree.get? (leaves.length - 1 + k) = leaves.get? k) ∧
      (∀ i, i + 1 < leaves.length → tree.get? i =
        some (nodeHash (.hexString (tree.getD (LeftChildIndex i) []))
                       (.hexString (tree.getD (RightChildIndex i) []))))) ∧
    MakeMerkleTree ([] : List BytesLike) nodeHash = .error .emptyTree := by
  constructor
  · refine ⟨buildFromLeaves nodeHash leaves, ?_, buildFromLeaves_length nodeHash leaves,
      fun k hk => buildFromLeaves_leaf nodeHash leaves k hk,
      fun i hi => buildFromLeaves_internal nodeHash leaves i hi⟩
    have hne' : hashes.isEmpty = false := by
      cases hashes with
      | nil => exact absurd rfl hne
      | cons a t => rfl
    unfold MakeMerkleTree
    simp only [hne', Bool.false_eq_true, if_false, hmap]
  · rfl

/-- Witness for claim C4 at a concrete two-leaf input. -/
theorem claim_C4_tree_layout_witness :
    (∃ tree, MakeMerkleTree [.hexString sampleHash1, .hexString sampleHash2] constNodeHash =
        .ok tree ∧
      tree.length = 2 * [sampleHash1, sampleHash2].length - 1 ∧
      (∀ k < [sampleHash1, sampleHash2].length,
        tree.get? ([sampleHash1, sampleHash2].length - 1 + k) =
          [sampleHash1, sampleHash2].get? k) ∧
      (∀ i, i + 1 < [sampleHash1, sampleHash2].length → tree.get? i =
        some (constNodeHash (.hexString (tree.getD (LeftChildIndex i) []))
                            (.hexString (tree.getD (RightChildIndex i) []))))) ∧
    MakeMerkleTree ([] : List BytesLike) constNodeHash = .error .emptyTree := by
  exact claim_C4_tree_layout [.hexString sampleHash1, .hexString sampleHash2]
    [sampleHash1, sampleHash2] constNodeHash (by decide) (by decide)

/-! ## Claim C3: node-hash commutativity (corrected) -/

/-- Counterexample to claim C3 as stated: a raw 32-character non-hex
string and a 32-byte slice are both valid 32-byte Merkle nodes, but
`Compare` errors on the former, the sort comparator then reports false
both ways, and the two argument orders feed different concatenations
to the hash — here made observable with the identity in place of
Keccak-256 (with the real Keccak the outputs differ unless the two
distinct concatenations collide). -/
theorem claim_C3_counterexample :
    IsValidMerkleNode (.str (List.replicate 32 122)) = true ∧
    IsValidMerkleNode (.bytes (List.replicate 32 0)) = true ∧
    StandardNodeHash (fun bs => bs) (.str (List.replicate 32 122)) (.bytes (List.replicate 32 0)) ≠
      StandardNodeHash (fun bs => bs) (.bytes (List.replicate 32 0))
        (.str (List.replicate 32 122)) := by
  refine ⟨by decide, by decide, ?_⟩
  decide

theorem hexByteConsistent_elim {x : BytesLike} (h : HexByteConsistent x = true) :
    ∃ hx bs, ToHex x = some hx ∧ ToBytes x = some bs ∧
      hexToNat (hx.drop 2) = beNat bs ∧ ∀ y ∈ bs, y < 256 := by
  unfold HexByteConsistent at h
  cases htx : ToHex x with
  | none => rw [htx] at h; exact Bool.noConfusion h
  | some hx =>
    cases htb : ToBytes x with
    | none => rw [htx, htb] at h; exact Bool.noConfusion h
    | some bs =>
      rw [htx, htb] at h
      simp only [Bool.and_eq_true, beq_iff_eq, List.all_eq_true, decide_eq_true_eq] at h
      exact ⟨hx, bs, rfl, rfl, h.1, h.2⟩

theorem isValidMerkleNode_length {x : BytesLike} {bs : List Nat}
    (h : IsValidMerkleNode x = true) (hbs : ToBytes x = some bs) : bs.length = 32 := by
  unfold IsValidMerkleNode at h
  rw [hbs] at h
  simpa using h

theorem goLess_of_toHex {a b : BytesLike} {ha hb : GoString}
    (hta : ToHex a = some ha) (htb : ToHex b = some hb) :
    goLess a b = decide (hexToNat (ha.drop 2) < hexToNat (hb.drop 2)) := by
  simp only [goLess, Compare, hta, htb]
  rcases Nat.lt_trichotomy (hexToNat (ha.drop 2)) (hexToNat (hb.drop 2)) with h | h | h
  · simp [h]
  · simp [h]
  · have h1 : ¬ hexToNat (ha.drop 2) < hexToNat (hb.drop 2) := by omega
    simp only [h1, if_false, h, if_true, decide_eq_false h1]
    decide

/-- `StandardNodeHash` depends on its arguments only through the
concatenation of the sorted pair. -/
theorem standardNodeHash_congr {k : List Nat → List Nat} {a b a' b' : BytesLike}
    (hc : Concat [(sortPairGo a b).1, (sortPairGo a b).2] =
          Concat [(sortPairGo a' b').1, (sortPairGo a' b').2]) :
    StandardNodeHash k a b = StandardNodeHash k a' b' := by
  simp only [StandardNodeHash]
  rw [hc]

/-- Claim C3 amended: `StandardNodeHash` orders the pair with
`Compare` before concatenating and hashing, and it is commutative for
every pair of valid 32-byte nodes whose hex reading and byte reading
agree (`HexByteConsistent`; true of raw 32-byte slices and of
"0x"-prefixed 64-digit hex strings, but not of every valid node — see
the counterexample). -/
theorem claim_C3_nodehash_commutative (k : List Nat → List Nat) (a b : BytesLike)
    (hva : IsValidMerkleNode a = true) (hvb : IsValidMerkleNode b = true)
    (hca : HexByteConsistent a = true) (hcb : HexByteConsistent b = true) :
    StandardNodeHash k a b = StandardNodeHash k b a := by
  obtain ⟨ha, bsa, hta, hba, heqa, hbda⟩ := hexByteConsistent_elim hca
  obtain ⟨hb, bsb, htb, hbb, heqb, hbdb⟩ := hexByteConsistent_elim hcb
  have hla := goLess_of_toHex htb hta
  have hlb := goLess_of_toHex hta htb
  rcases Nat.lt_trichotomy (hexToNat (ha.drop 2)) (hexToNat (hb.drop 2)) with h | h | h
  · have h1 : goLess b a = false := by rw [hla]; simp; omega
    have h2 : goLess a b = true := by rw [hlb]; simp [h]
    refine standardNodeHash_congr ?_
    simp [sortPairGo, h1, h2]
  · have hbytes : bsa = bsb := by
      refine beNat_inj ?_ hbda hbdb ?_
      · rw [isValidMerkleNode_length hva hba, isValidMerkleNode_length hvb hbb]
      · rw [← heqa, ← heqb, h]
    have h1 : goLess b a = false := by rw [hla]; simp; omega
    have h2 : goLess a b = false := by rw [hlb]; simp; omega
    refine standardNodeHash_congr ?_
    simp only [sortPairGo, h1, h2, Bool.false_eq_true, if_false]
    simp [Concat, hba, hbb, hbytes]
  · have h1 : goLess b a = true := by rw [hla]; simp [h]
    have h2 : goLess a b = false := by rw [hlb]; simp; omega
    refine standardNodeHash_congr ?_
    simp [sortPairGo, h1, h2]

/-- Witness for the amended claim C3 at concrete inputs. -/
theorem claim_C3_nodehash_commutative_witness :
    StandardNodeHash (fun bs => bs) (.hexString sampleHash1) (.bytes (List.replicate 32 0)) =
      StandardNodeHash (fun bs => bs) (.bytes (List.replicate 32 0))
        (.hexString sampleHash1) := by
  exact claim_C3_nodehash_commutative (fun bs => bs) (.hexString sampleHash1)
    (.bytes (List.replicate 32 0)) (by decide) (by decide) (by decide) (by decide)

/-! ## Claim C10: GetMultiProof performs no index validation -/

/-- The queue walk can only surface the hex-conversion error: it never
produces `ErrNotLeafNode` or `ErrInvalidIndex`. -/
theorem getMultiProofLoop_error_classify (tree : List BytesLike) (stack : List Nat) :
    ∀ r, getMultiProofLoop tree stack = some (.error r) → r = .conversionError := by
  induction stack using getMultiProofLoop.induct tree with
  | case1 => simp [getMultiProofLoop]
  | case2 rest => simp [getMultiProofLoop]
  | case3 j rest hj s p hhead hrec ih =>
    intro r h
    simp only [getMultiProofLoop, dif_neg hj, dif_pos hhead, hrec] at h
    exact Option.noConfusion h
  | case4 j rest hj s p hhead e hrec ih =>
    intro r h
    simp only [getMultiProofLoop, dif_neg hj, dif_pos hhead, hrec] at h
    simp only [Option.some_inj, Except.error.injEq] at h
    rw [← h]
    exact ih e hrec
  | case5 j rest hj s p hhead proof proofFlags final hrec ih =>
    intro r h
    simp only [getMultiProofLoop, dif_neg hj, dif_pos hhead, hrec] at h
    simp at h
  | case6 j rest hj s hhead hget =>
    intro r h
    simp only [getMultiProofLoop, dif_neg hj, dif_neg hhead, hget] at h
    exact Option.noConfusion h
  | case7 j rest hj s hhead sib hget hhex =>
    intro r h
    simp only [getMultiProofLoop, dif_neg hj, dif_neg hhead, hget, hhex] at h
    simp only [Option.some_inj, Except.error.injEq] at h
    exact h.symm
  | case8 j rest hj s p hhead sib hget hh hhex hrec ih =>
    intro r h
    simp only [getMultiProofLoop, dif_neg hj, dif_neg hhead, hget, hhex, hrec] at h
    exact Option.noConfusion h
  | case9 j rest hj s p hhead sib hget hh hhex e hrec ih =>
    intro r h
    simp only [getMultiProofLoop, dif_neg hj, dif_neg hhead, hget, hhex, hrec] at h
    simp only [Option.some_inj, Except.error.injEq] at h
    rw [← h]
    exact ih e hrec
  | case10 j rest hj s p hhead sib hget hh hhex proof proofFlags final hrec ih =>
    intro r h
    simp only [getMultiProofLoop, dif_neg hj, dif_neg hhead, hget, hhex, hrec] at h
    simp at h

/-- The leaf-collection loop can only surface the hex-conversion
error. -/
theorem multiLeaves_error_classify (tree : List BytesLike) :
    ∀ (idxs : List Nat) r, multiLeaves tree idxs = some (.error r) → r = .conversionError := by
  intro idxs
  induction idxs with
  | nil => intro r h; simp [multiLeaves] at h
  | cons idx rest ih =>
    intro r h
    simp only [multiLeaves] at h
    cases hg : tree.get? idx with
    | none => simp only [hg] at h; exact Option.noConfusion h
    | some v =>
      simp only [hg] at h
      cases ht : ToHex v with
      | none =>
        simp only [ht, Option.some_inj, Except.error.injEq] at h
        exact h.symm
      | some lh =>
        simp only [ht] at h
        cases hr : multiLeaves tree rest with
        | none => simp only [hr] at h; exact Option.noConfusion h
        | some res =>
          simp only [hr] at h
          cases res with
          | error e =>
            simp only [Option.some_inj, Except.error.injEq] at h
            rw [← h]
            exact ih e hr
          | ok hs => simp at h

/-- `GetMultiProof` on a non-empty index list can only fail (as an
error value) with the hex-conversion error. -/
theorem getMultiProof_error_classify (tree : List BytesLike) (indices : List Nat)
    (hne : indices ≠ []) (r : MerkleError) :
    GetMultiProof tree indices = some (.error r) → r = .conversionError := by
  intro h
  have hne' : indices.isEmpty = false := by
    cases indices with
    | nil => exact absurd rfl hne
    | cons a t => rfl
  simp only [GetMultiProof, hne', Bool.false_eq_true, if_false] at h
  cases hl : getMultiProofLoop tree indices with
  | none => simp only [hl] at h; exact Option.noConfusion h
  | some res =>
    simp only [hl] at h
    cases res with
    | error e =>
      simp only [Option.some_inj, Except.error.injEq] at h
      rw [← h]
      exact getMultiProofLoop_error_classify tree indices e hl
    | ok trip =>
      obtain ⟨proof, proofFlags⟩ := trip
      cases hm : multiLeaves tree indices with
      | none => simp only [hm] at h; exact Option.noConfusion h
      | some res2 =>
        simp only [hm] at h
        cases res2 with
        | error e =>
          simp only [Option.some_inj, Except.error.injEq] at h
          rw [← h]
          exact multiLeaves_error_classify tree indices e hm
        | ok leavesHex => simp at h

/-- Claim C10: `GetMultiProof` validates nothing about its index list
beyond non-emptiness — it can never return `ErrNotLeafNode` or
`ErrInvalidIndex`; an internal-node index is accepted silently (the
seven-node sample tree with index 1), and an index at or beyond the
tree length drives a tree access out of bounds, i.e. a Go panic
(modelled as `none`), rather than an error value. -/
theorem claim_C10_no_index_validation :
    (∀ (tree : List BytesLike) (indices : List Nat), indices ≠ [] →
      GetMultiProof tree indices ≠ some (.error .notLeafNode) ∧
      GetMultiProof tree indices ≠ some (.error .invalidIndex)) ∧
    GetMultiProof [BytesLike.hexString sampleHash1] [5] = none ∧
    (∃ mp, GetMultiProof sampleTree7 [1] = some (.ok mp)) := by
  refine ⟨fun tree indices hne => ⟨fun h => ?_, fun h => ?_⟩, ?_, ?_⟩
  · exact MerkleError.noConfusion (getMultiProof_error_classify tree indices hne _ h)
  · exact MerkleError.noConfusion (getMultiProof_error_classify tree indices hne _ h)
  · have h5 : getMultiProofLoop [BytesLike.hexString sampleHash1] [5] = none := by
      rw [getMultiProofLoop]
      decide
    simp [GetMultiProof, h5]
  · have h0 : getMultiProofLoop sampleTree7 [0] = some (.ok ([], [], [0])) := by
      rw [getMultiProofLoop]
      rfl
    have h1 : getMultiProofLoop sampleTree7 [1] =
        some (.ok ([zeros64], [false], [0])) := by
      rw [getMultiProofLoop]
      simp only [show ParentIndex 1 = 0 from rfl, List.tail_nil, List.nil_append, h0]
      decide
    refine ⟨⟨[zeros64], [zeros64], [false]⟩, ?_⟩
    simp only [GetMultiProof, List.isEmpty_cons, Bool.false_eq_true, if_false, h1]
    decide

/-- Witness for claim C10 applied at a concrete tree and index list. -/
theorem claim_C10_no_index_validation_witness :
    GetMultiProof sampleTree7 [1] ≠ some (.error .notLeafNode) ∧
      GetMultiProof sampleTree7 [1] ≠ some (.error .invalidIndex) :=
  claim_C10_no_index_validation.1 sampleTree7 [1] (by decide)

/-! ## Claim C1: single-proof round trip -/

theorem get?_some_getD {α : Type} (l : List α) (d : α) (i : Nat) (h : i < l.length) :
    l.get? i = some (l.getD i d) := by
  show _ = some ((l.get? i).getD d)
  rw [List.get?_eq_get h]
  rfl

theorem mapM_toHex_length :
    ∀ {hashes : List BytesLike} {leaves : List GoString},
      hashes.mapM ToHex = some leaves → leaves.length = hashes.length := by
  intro hashes
  induction hashes with
  | nil =>
    intro leaves h
    simp only [List.mapM_nil, pure, Option.some_inj] at h
    subst h
    rfl
  | cons a rest ih =>
    intro leaves h
    rw [List.mapM_cons] at h
    cases hta : ToHex a with
    | none => rw [hta] at h; simp at h
    | some ha =>
      rw [hta] at h
      cases htr : rest.mapM ToHex with
      | none => rw [htr] at h; simp at h
      | some t =>
        rw [htr] at h
        simp only [Option.bind_eq_bind, Option.some_bind, pure, Option.some_inj] at h
        subst h
        simp [ih htr]

theorem mapM_toHex_mem :
    ∀ {hashes : List BytesLike} {leaves : List GoString},
      hashes.mapM ToHex = some leaves →
      ∀ l ∈ leaves, ∃ x ∈ hashes, ToHex x = some l := by
  intro hashes
  induction hashes with
  | nil =>
    intro leaves h
    simp only [List.mapM_nil, pure, Option.some_inj] at h
    subst h
    intro l hl
    exact absurd hl (List.not_mem_nil l)
  | cons a rest ih =>
    intro leaves h
    rw [List.mapM_cons] at h
    cases hta : ToHex a with
    | none => rw [hta] at h; simp at h
    | some ha =>
      rw [hta] at h
      cases htr : rest.mapM ToHex with
      | none => rw [htr] at h; simp at h
      | some t =>
        rw [htr] at h
        simp only [Option.bind_eq_bind, Option.some_bind, pure, Option.some_inj] at h
        subst h
        intro l hl
        rcases List.mem_cons.mp hl with hl | hl
        · exact ⟨a, List.mem_cons_self _ _, hl ▸ hta⟩
        · obtain ⟨x, hx, hxl⟩ := ih htr l hl
          exact ⟨x, List.mem_cons_of_mem _ hx, hxl⟩

/-- Inversion of a successful `MakeMerkleTree`. -/
theorem makeMerkleTree_ok_elim {hashes : List BytesLike} {nodeHash : NodeHash}
    {tree : List GoString} (h : MakeMerkleTree hashes nodeHash = .ok tree) :
    ∃ leaves, hashes ≠ [] ∧ hashes.mapM ToHex = some leaves ∧
      tree = buildFromLeaves nodeHash leaves := by
  unfold MakeMerkleTree at h
  by_cases he : hashes.isEmpty
  · rw [if_pos he] at h
    exact Except.noConfusion h
  · rw [if_neg he] at h
    cases hm : hashes.mapM ToHex with
    | none => rw [hm] at h; exact Except.noConfusion h
    | some leaves =>
      rw [hm] at h
      refine ⟨leaves, ?_, rfl, (Except.ok.inj h).symm⟩
      intro hcon
      subst hcon
      exact he rfl

/-- The sibling of a positive in-bounds index of an odd-length tree is
in bounds. -/
theorem siblingIndex_lt {idx len : Nat} (h0 : idx ≠ 0) (hlt : idx < len)
    (hodd : len % 2 = 1) : SiblingIndex idx < len := by
  unfold SiblingIndex
  rw [if_pos (by omega)]
  by_cases hpar : idx % 2 = 0
  · rw [if_pos hpar]; omega
  · rw [if_neg hpar]; omega

/-- In a correct tree with a commutative node hash, hashing any
positive in-bounds node with its sibling gives the parent node. -/
theorem nodeHash_sibling_parent (nodeHash : NodeHash) (tree : List GoString)
    (hcomm : ∀ a b, nodeHash a b = nodeHash b a)
    (hcorrect : TreeCorrect nodeHash tree)
    (hodd : tree.length % 2 = 1)
    {idx : Nat} (h0 : idx ≠ 0) (hlt : idx < tree.length) :
    nodeHash (.hexString (tree.getD idx []))
        (.hexString (tree.getD (SiblingIndex idx) [])) =
      tree.getD (ParentIndex idx) [] := by
  have hs : SiblingIndex idx < tree.length := siblingIndex_lt h0 hlt hodd
  have hplen : ParentIndex idx < tree.length := by
    unfold ParentIndex
    rw [if_pos (by omega)]
    omega
  by_cases hpar : idx % 2 = 0
  · have hidx : idx = RightChildIndex (ParentIndex idx) := by
      unfold RightChildIndex ParentIndex
      rw [if_pos (by omega)]
      omega
    have hsib : SiblingIndex idx = LeftChildIndex (ParentIndex idx) := by
      unfold SiblingIndex LeftChildIndex ParentIndex
      rw [if_pos (by omega), if_pos hpar, if_pos (by omega)]
      omega
    have hc := hcorrect (ParentIndex idx) (by omega)
    rw [← hidx] at hc
    rw [hcomm, hsib]
    rw [get?_some_getD tree [] (ParentIndex idx) hplen] at hc
    exact (Option.some_inj.mp hc).symm
  · have hidx : idx = LeftChildIndex (ParentIndex idx) := by
      unfold LeftChildIndex ParentIndex
      rw [if_pos (by omega)]
      omega
    have hsib : SiblingIndex idx = RightChildIndex (ParentIndex idx) := by
      unfold SiblingIndex RightChildIndex ParentIndex
      rw [if_pos (by omega), if_neg hpar, if_pos (by omega)]
      omega
    have hc := hcorrect (ParentIndex idx) (by rw [← hsib]; omega)
    rw [← hidx, ← hsib] at hc
    rw [get?_some_getD tree [] (ParentIndex idx) hplen] at hc
    exact (Option.some_inj.mp hc).symm

/-- The canonicality, correctness and odd-length facts a successful
`MakeMerkleTree` establishes for its output, given canonical input
hashes and a canonical node-hash function. -/
theorem makeMerkleTree_props {hashes : List BytesLike} {nodeHash : NodeHash}
    {tree : List GoString} (hmake : MakeMerkleTree hashes nodeHash = .ok tree)
    (hin : ∀ x ∈ hashes, CanonicalHashInput x = true)
    (hnh : ∀ a b, Canonical32 (nodeHash a b) = true) :
    (∀ x ∈ tree, Canonical32 x = true) ∧ TreeCorrect nodeHash tree ∧
      tree.length % 2 = 1 := by
  obtain ⟨leaves, hne, hmap, htree⟩ := makeMerkleTree_ok_elim hmake
  have hleaves_canon : ∀ l ∈ leaves, Canonical32 l = true := by
    intro l hl
    obtain ⟨x, hx, hxl⟩ := mapM_toHex_mem hmap l hl
    have := hin x hx
    unfold CanonicalHashInput at this
    rw [hxl] at this
    exact this
  have hn1 : 1 ≤ leaves.length := by
    rcases hashes with _ | ⟨a, t⟩
    · exact absurd rfl hne
    · have := mapM_toHex_length hmap
      simp only [List.length_cons] at this
      omega
  have hlen : tree.length = 2 * leaves.length - 1 := by
    rw [htree]; exact buildFromLeaves_length nodeHash leaves
  refine ⟨?_, ?_, by omega⟩
  · rw [htree]
    exact buildFromLeaves_canonical nodeHash leaves hleaves_canon hnh
  · intro i hi
    rw [htree]
    rw [hlen] at hi
    exact buildFromLeaves_internal nodeHash leaves i
      (by unfold RightChildIndex at hi; omega)

/-- The proof walk of `GetProof` together with the fold of
`ProcessProof`: from any in-bounds position of a correct tree built
over a commutative node hash with canonical nodes, the collected
sibling path folds back to the root. -/
theorem getProofLoop_fold (nodeHash : NodeHash) (tree : List GoString)
    (hcomm : ∀ a b, nodeHash a b = nodeHash b a)
    (hcorrect : TreeCorrect nodeHash tree)
    (hcanon : ∀ x ∈ tree, Canonical32 x = true)
    (hodd : tree.length % 2 = 1) :
    ∀ idx, idx < tree.length →
      ∃ prf, getProofLoop (tree.map BytesLike.hexString) idx = some (.ok prf) ∧
        (∀ x ∈ prf, Canonical32 x = true) ∧
        processFold nodeHash (tree.getD idx []) (prf.map BytesLike.hexString) =
          .ok (tree.getD 0 []) := by
  intro idx
  induction idx using Nat.strong_induction_on with
  | _ idx ih =>
    intro hlt
    by_cases h0 : idx = 0
    · subst h0
      refine ⟨[], ?_, by simp, rfl⟩
      rw [getProofLoop]
      simp
    · have hs : SiblingIndex idx < tree.length := siblingIndex_lt h0 hlt hodd
      have hp : ParentIndex idx < idx := by
        unfold ParentIndex
        rw [if_pos (by omega)]
        omega
      have hplen : ParentIndex idx < tree.length := by omega
      obtain ⟨prfP, hloopP, hcanonP, hfoldP⟩ := ih (ParentIndex idx) hp hplen
      have hsib_mem : tree.getD (SiblingIndex idx) [] ∈ tree :=
        List.mem_iff_get?.mpr ⟨_, get?_some_getD tree [] _ hs⟩
      have hsib_canon : Canonical32 (tree.getD (SiblingIndex idx) []) = true :=
        hcanon _ hsib_mem
      have hget : (tree.map BytesLike.hexString).get? (SiblingIndex idx) =
          some (.hexString (tree.getD (SiblingIndex idx) [])) := by
        rw [List.get?_map, get?_some_getD tree [] _ hs]
        rfl
      have hhex : ToHex (.hexString (tree.getD (SiblingIndex idx) [])) =
          some (tree.getD (SiblingIndex idx) []) :=
        toHex_hexString_of_canonical hsib_canon
      refine ⟨tree.getD (SiblingIndex idx) [] :: prfP, ?_, ?_, ?_⟩
      · rw [getProofLoop]
        simp only [dif_neg h0, hget, hhex, hloopP]
      · intro x hx
        rcases List.mem_cons.mp hx with hx | hx
        · exact hx ▸ hsib_canon
        · exact hcanonP x hx
      · have hstep := nodeHash_sibling_parent nodeHash tree hcomm hcorrect hodd h0 hlt
        simp only [List.map_cons, processFold, hhex, hstep, hfoldP]

/-- Claim C1: for a tree built by `MakeMerkleTree` over canonical
32-byte leaf hashes with a well-behaved node hash, `GetProof` at any
leaf position succeeds and `ProcessProof` of the leaf with that proof
succeeds and returns the node at tree index 0 (the root). -/
theorem claim_C1_single_proof_roundtrip (hashes : List BytesLike) (nodeHash : NodeHash)
    (tree : List GoString) (idx : Nat)
    (hmake : MakeMerkleTree hashes nodeHash = .ok tree)
    (hin : ∀ x ∈ hashes, CanonicalHashInput x = true)
    (hgood : GoodNodeHash nodeHash)
    (hleaf : IsLeafNode (tree.map BytesLike.hexString) idx = true) :
    ∃ prf, GetProof (tree.map BytesLike.hexString) idx = some (.ok prf) ∧
      ProcessProof (.hexString (tree.getD idx [])) (prf.map BytesLike.hexString) nodeHash =
        .ok (tree.getD 0 []) := by
  obtain ⟨hcanon, hcorrect, hodd⟩ := makeMerkleTree_props hmake hin hgood.2
  have hidxlt : idx < tree.length := by
    have := hleaf
    unfold IsLeafNode IsTreeNode at this
    simp only [List.length_map, Bool.and_eq_true, decide_eq_true_eq] at this
    exact this.1
  obtain ⟨prf, hloop, hprfcanon, hfold⟩ :=
    getProofLoop_fold nodeHash tree hgood.1 hcorrect hcanon hodd idx hidxlt
  refine ⟨prf, ?_, ?_⟩
  · unfold GetProof
    rw [if_pos hleaf]
    exact hloop
  · have hleafnode : tree.getD idx [] ∈ tree :=
      List.mem_iff_get?.mpr ⟨_, get?_some_getD tree [] _ hidxlt⟩
    have hleafcanon : Canonical32 (tree.getD idx []) = true := hcanon _ hleafnode
    have hrootcanon : Canonical32 (tree.getD 0 []) = true := by
      refine hcanon _ (List.mem_iff_get?.mpr ⟨0, get?_some_getD tree [] 0 (by omega)⟩)
    unfold ProcessProof
    rw [if_neg (by rw [isValidMerkleNode_of_canonical hleafcanon]; decide)]
    have hallvalid : (prf.map BytesLike.hexString).all IsValidMerkleNode = true := by
      rw [List.all_eq_true]
      intro nd hnd
      obtain ⟨x, hx, hxnd⟩ := List.mem_map.mp hnd
      rw [← hxnd]
      exact isValidMerkleNode_of_canonical (hprfcanon x hx)
    rw [if_neg (by rw [hallvalid]; decide)]
    simp only [toHex_hexString_of_canonical hleafcanon, hfold,
      toHex_hexString_of_canonical hrootcanon]

/-- Witness for claim C1 on the concrete two-leaf tree. -/
theorem claim_C1_single_proof_roundtrip_witness :
    ∃ prf, GetProof ([zeros64, sampleHash1, sampleHash2].map BytesLike.hexString) 1 =
        some (.ok prf) ∧
      ProcessProof (.hexString ([zeros64, sampleHash1, sampleHash2].getD 1 []))
          (prf.map BytesLike.hexString) constNodeHash =
        .ok ([zeros64, sampleHash1, sampleHash2].getD 0 []) := by
  refine claim_C1_single_proof_roundtrip
    [.hexString sampleHash1, .hexString sampleHash2] constNodeHash
    [zeros64, sampleHash1, sampleHash2] 1 (by decide) (by decide)
    ⟨fun a b => rfl, fun a b => show Canonical32 zeros64 = true by decide⟩ (by decide)

/-! ## Claim C2: multiproof round trip -/

/-- The generation walk simulated by the reconstruction loop: when the
queue walk of `GetMultiProof` succeeds on in-bounds indices over a
correct canonical tree, the reconstruction loop of
`ProcessMultiProof`, run on the corresponding tree values with the
generated proof and flags, consumes the side proof completely and ends
with exactly the tree values of the walk's final index queue. -/
theorem multiproofLoop_sim (nodeHash : NodeHash) (tree : List GoString)
    (hcomm : ∀ a b, nodeHash a b = nodeHash b a)
    (hcorrect : TreeCorrect nodeHash tree)
    (hcanon : ∀ x ∈ tree, Canonical32 x = true)
    (hodd : tree.length % 2 = 1) :
    ∀ stack, (∀ j ∈ stack, j < tree.length) →
      ∀ prf flags fin,
      getMultiProofLoop (tree.map BytesLike.hexString) stack =
        some (.ok (prf, flags, fin)) →
      processMultiLoop nodeHash flags (stack.map (fun j => tree.getD j [])) prf =
        .ok (fin.map (fun j => tree.getD j []), []) := by
  intro stack
  induction stack using getMultiProofLoop.induct (tree.map BytesLike.hexString) with
  | case1 =>
    intro hb prf flags fin h
    simp only [getMultiProofLoop, Option.some_inj, Except.ok.injEq, Prod.mk.injEq] at h
    obtain ⟨rfl, rfl, rfl⟩ := h
    rfl
  | case2 rest =>
    intro hb prf flags fin h
    simp only [getMultiProofLoop, Option.some_inj, Except.ok.injEq, Prod.mk.injEq] at h
    obtain ⟨rfl, rfl, rfl⟩ := h
    rfl
  | case3 j rest hj s p hhead hrec ih =>
    intro hb prf flags fin h
    simp only [getMultiProofLoop, dif_neg hj, dif_pos hhead, hrec] at h
    exact Option.noConfusion h
  | case4 j rest hj s p hhead e hrec ih =>
    intro hb prf flags fin h
    simp only [getMultiProofLoop, dif_neg hj, dif_pos hhead, hrec, Option.some_inj] at h
    exact Except.noConfusion h
  | case5 j rest hj s p hhead proofR flagsR finalR hrec ih =>
    intro hb prf flags fin h
    simp only [getMultiProofLoop, dif_neg hj, dif_pos hhead, hrec, Option.some_inj,
      Except.ok.injEq, Prod.mk.injEq] at h
    obtain ⟨rfl, rfl, rfl⟩ := h
    cases rest with
    | nil => simp at hhead
    | cons r rs =>
      simp only [List.head?_cons, Option.some_inj] at hhead
      subst hhead
      have hjlt : j < tree.length := hb j (List.mem_cons_self _ _)
      have hslt : SiblingIndex j < tree.length := siblingIndex_lt hj hjlt hodd
      have hplt : ParentIndex j < tree.length := by
        unfold ParentIndex; rw [if_pos (by omega)]; omega
      have hcj : Canonical32 (tree.getD j []) = true :=
        hcanon _ (List.mem_iff_get?.mpr ⟨_, get?_some_getD tree [] _ hjlt⟩)
      have hcs : Canonical32 (tree.getD (SiblingIndex j) []) = true :=
        hcanon _ (List.mem_iff_get?.mpr ⟨_, get?_some_getD tree [] _ hslt⟩)
      have hstep := nodeHash_sibling_parent nodeHash tree hcomm hcorrect hodd hj hjlt
      simp only [List.map_cons, processMultiLoop, if_true,
        toHex_hexString_of_canonical hcj, toHex_hexString_of_canonical hcs, hstep]
      have hmapapp : rs.map (fun j => tree.getD j []) ++ [tree.getD (ParentIndex j) []] =
          (rs ++ [ParentIndex j]).map (fun j => tree.getD j []) := by
        simp [List.map_append]
      rw [hmapapp]
      refine ih ?_ proofR flagsR finalR hrec
      intro x hx
      rcases List.mem_append.mp hx with hx | hx
      · exact hb x (List.mem_cons_of_mem _ (List.mem_cons_of_mem _ hx))
      · have : x = ParentIndex j := by simpa using hx
        subst this
        exact hplt
  | case6 j rest hj s hhead hget =>
    intro hb prf flags fin h
    have hjlt : j < tree.length := hb j (List.mem_cons_self _ _)
    have hslt : SiblingIndex j < tree.length := siblingIndex_lt hj hjlt hodd
    have : (tree.map BytesLike.hexString).get? (SiblingIndex j) =
        some (.hexString (tree.getD (SiblingIndex j) [])) := by
      rw [List.get?_map, get?_some_getD tree [] _ hslt]
      rfl
    rw [hget] at this
    exact Option.noConfusion this
  | case7 j rest hj s hhead sib hget hhex =>
    intro hb prf flags fin h
    have hjlt : j < tree.length := hb j (List.mem_cons_self _ _)
    have hslt : SiblingIndex j < tree.length := siblingIndex_lt hj hjlt hodd
    have hcs : Canonical32 (tree.getD (SiblingIndex j) []) = true :=
      hcanon _ (List.mem_iff_get?.mpr ⟨_, get?_some_getD tree [] _ hslt⟩)
    have hsib : sib = .hexString (tree.getD (SiblingIndex j) []) := by
      have : (tree.map BytesLike.hexString).get? (SiblingIndex j) =
          some (.hexString (tree.getD (SiblingIndex j) [])) := by
        rw [List.get?_map, get?_some_getD tree [] _ hslt]
        rfl
      rw [hget] at this
      exact Option.some_inj.mp this
    rw [hsib, toHex_hexString_of_canonical hcs] at hhex
    exact Option.noConfusion hhex
  | case8 j rest hj s p hhead sib hget hh hhex hrec ih =>
    intro hb prf flags fin h
    simp only [getMultiProofLoop, dif_neg hj, dif_neg hhead, hget, hhex, hrec] at h
    exact Option.noConfusion h
  | case9 j rest hj s p hhead sib hget hh hhex e hrec ih =>
    intro hb prf flags fin h
    simp only [getMultiProofLoop, dif_neg hj, dif_neg hhead, hget, hhex, hrec,
      Option.some_inj] at h
    exact Except.noConfusion h
  | case10 j rest hj s p hhead sib hget hh hhex proofR flagsR finalR hrec ih =>
    intro hb prf flags fin h
    simp only [getMultiProofLoop, dif_neg hj, dif_neg hhead, hget, hhex, hrec,
      Option.some_inj, Except.ok.injEq, Prod.mk.injEq] at h
    obtain ⟨rfl, rfl, rfl⟩ := h
    have hjlt : j < tree.length := hb j (List.mem_cons_self _ _)
    have hslt : SiblingIndex j < tree.length := siblingIndex_lt hj hjlt hodd
    have hplt : ParentIndex j < tree.length := by
      unfold ParentIndex; rw [if_pos (by omega)]; omega
    have hcj : Canonical32 (tree.getD j []) = true :=
      hcanon _ (List.mem_iff_get?.mpr ⟨_, get?_some_getD tree [] _ hjlt⟩)
    have hcs : Canonical32 (tree.getD (SiblingIndex j) []) = true :=
      hcanon _ (List.mem_iff_get?.mpr ⟨_, get?_some_getD tree [] _ hslt⟩)
    have hhval : hh = tree.getD (SiblingIndex j) [] := by
      have hsib : sib = .hexString (tree.getD (SiblingIndex j) []) := by
        have : (tree.map BytesLike.hexString).get? (SiblingIndex j) =
            some (.hexString (tree.getD (SiblingIndex j) [])) := by
          rw [List.get?_map, get?_some_getD tree [] _ hslt]
          rfl
        rw [hget] at this
        exact Option.some_inj.mp this
      rw [hsib, toHex_hexString_of_canonical hcs] at hhex
      exact (Option.some_inj.mp hhex).symm
    subst hhval
    have hstep := nodeHash_sibling_parent nodeHash tree hcomm hcorrect hodd hj hjlt
    simp only [List.map_cons, processMultiLoop, Bool.false_eq_true, if_false,
      toHex_hexString_of_canonical hcj, toHex_hexString_of_canonical hcs, hstep]
    have hmapapp : rest.map (fun j => tree.getD j []) ++ [tree.getD (ParentIndex j) []] =
        (rest ++ [ParentIndex j]).map (fun j => tree.getD j []) := by
      simp [List.map_append]
    rw [hmapapp]
    refine ih ?_ proofR flagsR finalR hrec
    intro x hx
    rcases List.mem_append.mp hx with hx | hx
    · exact hb x (List.mem_cons_of_mem _ hx)
    · have : x = ParentIndex j := by simpa using hx
      subst this
      exact hplt

/-- The leaf-collection loop succeeds on in-bounds indices of a
canonical tree and returns exactly the tree values. -/
theorem multiLeaves_ok (tree : List GoString)
    (hcanon : ∀ x ∈ tree, Canonical32 x = true) :
    ∀ idxs : List Nat, (∀ i ∈ idxs, i < tree.length) →
      multiLeaves (tree.map BytesLike.hexString) idxs =
        some (.ok (idxs.map (fun j => tree.getD j []))) := by
  intro idxs
  induction idxs with
  | nil => intro _; rfl
  | cons idx rest ih =>
    intro hb
    have hlt : idx < tree.length := hb idx (List.mem_cons_self _ _)
    have hget : (tree.map BytesLike.hexString).get? idx =
        some (.hexString (tree.getD idx [])) := by
      rw [List.get?_map, get?_some_getD tree [] _ hlt]
      rfl
    have hc : Canonical32 (tree.getD idx []) = true :=
      hcanon _ (List.mem_iff_get?.mpr ⟨_, get?_some_getD tree [] _ hlt⟩)
    simp only [multiLeaves, hget, toHex_hexString_of_canonical hc,
      ih (fun i hi => hb i (List.mem_cons_of_mem _ hi)), List.map_cons]

/-- Claim C2: for a tree built by `MakeMerkleTree` over canonical
32-byte leaf hashes with a well-behaved node hash, and a non-empty
list of leaf indices presented in the order the reconstruction walk
requires (formally: the generation walk terminates with exactly the
root index on its queue), `GetMultiProof` succeeds and
`ProcessMultiProof` of its result returns the tree root (index 0). -/
theorem claim_C2_multiproof_roundtrip (hashes : List BytesLike) (nodeHash : NodeHash)
    (tree : List GoString) (indices : List Nat) (prf : List GoString) (flags : List Bool)
    (hmake : MakeMerkleTree hashes nodeHash = .ok tree)
    (hin : ∀ x ∈ hashes, CanonicalHashInput x = true)
    (hgood : GoodNodeHash nodeHash)
    (hne : indices ≠ [])
    (hleaves : ∀ i ∈ indices, IsLeafNode (tree.map BytesLike.hexString) i = true)
    (horder : getMultiProofLoop (tree.map BytesLike.hexString) indices =
      some (.ok (prf, flags, [0]))) :
    ∃ mp, GetMultiProof (tree.map BytesLike.hexString) indices = some (.ok mp) ∧
      ProcessMultiProof mp nodeHash = .ok (tree.getD 0 []) := by
  obtain ⟨hcanon, hcorrect, hodd⟩ := makeMerkleTree_props hmake hin hgood.2
  have hbounds : ∀ i ∈ indices, i < tree.length := by
    intro i hi
    have := hleaves i hi
    unfold IsLeafNode IsTreeNode at this
    simp only [List.length_map, Bool.and_eq_true, decide_eq_true_eq] at this
    exact this.1
  have hne' : indices.isEmpty = false := by
    cases indices with
    | nil => exact absurd rfl hne
    | cons a t => rfl
  have hml := multiLeaves_ok tree hcanon indices hbounds
  refine ⟨⟨indices.map (fun j => tree.getD j []), prf, flags⟩, ?_, ?_⟩
  · simp only [GetMultiProof, hne', Bool.false_eq_true, if_false, horder, hml]
  · have hsim := multiproofLoop_sim nodeHash tree hgood.1 hcorrect hcanon hodd
      indices hbounds prf flags [0] horder
    simp only [ProcessMultiProof, hsim, List.map_cons, List.map_nil]
    rfl

/-- Witness for claim C2 on the concrete two-leaf tree with the sibling
pair [1, 2]. -/
theorem claim_C2_multiproof_roundtrip_witness :
    ∃ mp, GetMultiProof ([zeros64, sampleHash1, sampleHash2].map BytesLike.hexString) [1, 2] =
        some (.ok mp) ∧
      ProcessMultiProof mp constNodeHash = .ok ([zeros64, sampleHash1, sampleHash2].getD 0 []) := by
  have h0 : getMultiProofLoop
      ([zeros64, sampleHash1, sampleHash2].map BytesLike.hexString) [0] =
      some (.ok ([], [], [0])) := by
    rw [getMultiProofLoop]
    rfl
  have horder : getMultiProofLoop
      ([zeros64, sampleHash1, sampleHash2].map BytesLike.hexString) [1, 2] =
      some (.ok ([], [true], [0])) := by
    rw [getMultiProofLoop]
    simp only [show ParentIndex 1 = 0 from rfl, List.tail_cons, List.nil_append, h0]
    decide
  exact claim_C2_multiproof_roundtrip
    [.hexString sampleHash1, .hexString sampleHash2] constNodeHash
    [zeros64, sampleHash1, sampleHash2] [1, 2] [] [true]
    (by decide) (by decide)
    ⟨fun a b => rfl, fun a b => show Canonical32 zeros64 = true by decide⟩
    (by decide) (by decide) horder

/-! ## Claim C5: canonicalization determinism -/

theorem isHexDigitByte_of_lower {c : Nat} (h : isLowerHexDigit c = true) :
    isHexDigitByte c = true := by
  unfold isLowerHexDigit at h
  unfold isHexDigitByte
  simp only [Bool.or_eq_true, Bool.and_eq_true, decide_eq_true_eq] at h ⊢
  omega

theorem hexDigitVal_lt_of_lower {c : Nat} (h : isLowerHexDigit c = true) :
    hexDigitVal c < 16 := by
  unfold isLowerHexDigit at h
  unfold hexDigitVal
  simp only [Bool.or_eq_true, Bool.and_eq_true, decide_eq_true_eq] at h
  rcases h with h | h
  · rw [if_pos (by omega)]; omega
  · rw [if_neg (by omega), if_neg (by omega)]; omega

theorem hexDigitVal_inj_lower {c d : Nat} (hc : isLowerHexDigit c = true)
    (hd : isLowerHexDigit d = true) (h : hexDigitVal c = hexDigitVal d) : c = d := by
  unfold isLowerHexDigit at hc hd
  unfold hexDigitVal at h
  simp only [Bool.or_eq_true, Bool.and_eq_true, decide_eq_true_eq] at hc hd
  rcases hc with hc | hc <;> rcases hd with hd | hd <;>
    [skip; rw [if_pos (by omega), if_neg (by omega), if_neg (by omega)] at h;
     rw [if_neg (by omega), if_neg (by omega), if_pos (by omega)] at h;
     rw [if_neg (by omega), if_neg (by omega), if_neg (by omega), if_neg (by omega)] at h]
  · rw [if_pos (by omega), if_pos (by omega)] at h
    omega
  · omega
  · omega
  · omega

theorem eq_of_map_hexDigitVal_eq :
    ∀ l1 l2 : GoString, (∀ c ∈ l1, isLowerHexDigit c = true) →
      (∀ c ∈ l2, isLowerHexDigit c = true) →
      l1.map hexDigitVal = l2.map hexDigitVal → l1 = l2 := by
  intro l1
  induction l1 with
  | nil =>
    intro l2 _ _ h
    cases l2 with
    | nil => rfl
    | cons c t => simp at h
  | cons c1 t1 ih =>
    intro l2 h1 h2 h
    cases l2 with
    | nil => simp at h
    | cons c2 t2 =>
      simp only [List.map_cons, List.cons.injEq] at h
      rw [hexDigitVal_inj_lower (h1 c1 (List.mem_cons_self _ _))
        (h2 c2 (List.mem_cons_self _ _)) h.1,
        ih t2 (fun c hc => h1 c (List.mem_cons_of_mem _ hc))
          (fun c hc => h2 c (List.mem_cons_of_mem _ hc)) h.2]

theorem hexToNat_eq_mapFold (s : GoString) :
    hexToNat s = (s.map hexDigitVal).foldl (fun acc c => 16 * acc + c) 0 := by
  rw [List.foldl_map]
  rfl

theorem hexDecode_isSome_of_digits :
    ∀ l : GoString, l.length % 2 = 0 → (∀ c ∈ l, isHexDigitByte c = true) →
      ∃ bs, hexDecode l = some bs ∧ 2 * bs.length = l.length := by
  intro l
  induction l using hexDecode.induct with
  | case1 => intro _ _; exact ⟨[], rfl, rfl⟩
  | case2 c => intro h _; simp at h
  | case3 c1 c2 rest hdig bs hbs ih =>
    intro hlen hall
    obtain ⟨bs2, hbs2, hbslen2⟩ := ih
      (by simp only [List.length_cons] at hlen ⊢; omega)
      (fun c hc => hall c (List.mem_cons_of_mem _ (List.mem_cons_of_mem _ hc)))
    rw [hbs] at hbs2
    refine ⟨(16 * hexDigitVal c1 + hexDigitVal c2) :: bs, ?_, ?_⟩
    · simp only [hexDecode, hdig, if_true, hbs]
    · simp only [List.length_cons]
      have : bs2 = bs := Option.some_inj.mp hbs2.symm
      subst this
      simp only [List.length_cons] at hlen
      omega
  | case4 c1 c2 rest hdig hnone ih =>
    intro hlen hall
    obtain ⟨bs2, hbs2, hbslen2⟩ := ih
      (by simp only [List.length_cons] at hlen ⊢; omega)
      (fun c hc => hall c (List.mem_cons_of_mem _ (List.mem_cons_of_mem _ hc)))
    rw [hnone] at hbs2
    exact Option.noConfusion hbs2
  | case5 c1 c2 rest hdig =>
    intro hlen hall
    exfalso
    have h1 : isHexDigitByte c1 = true := hall c1 (List.mem_cons_self _ _)
    have h2 : isHexDigitByte c2 = true :=
      hall c2 (List.mem_cons_of_mem _ (List.mem_cons_self _ _))
    rw [h1, h2] at hdig
    exact hdig rfl

theorem canonical64_elim {s : GoString} (h : Canonical64Lower s = true) :
    startsWith0x s = true ∧ (s.drop 2).length = 64 ∧
      ∀ c ∈ s.drop 2, isLowerHexDigit c = true := by
  unfold Canonical64Lower at h
  simp only [Bool.and_eq_true, beq_iff_eq, List.all_eq_true] at h
  exact ⟨h.1.1, h.1.2, h.2⟩

/-- A canonical lowercase 64-digit node string is a canonical 32-byte
node string. -/
theorem canonical32_of_canonical64 {s : GoString} (h : Canonical64Lower s = true) :
    Canonical32 s = true := by
  obtain ⟨h0x, hlen, hdig⟩ := canonical64_elim h
  obtain ⟨bs, hbs, hbslen⟩ := hexDecode_isSome_of_digits (s.drop 2) (by omega)
    (fun c hc => isHexDigitByte_of_lower (hdig c hc))
  unfold Canonical32
  rw [h0x, hbs]
  simp only [Bool.true_and, beq_iff_eq]
  omega

/-- Two canonical lowercase 64-digit strings with the same hex value
are equal. -/
theorem canonical64_inj {a b : GoString} (ha : Canonical64Lower a = true)
    (hb : Canonical64Lower b = true)
    (hv : hexToNat (a.drop 2) = hexToNat (b.drop 2)) : a = b := by
  obtain ⟨h0a, hlena, hdiga⟩ := canonical64_elim ha
  obtain ⟨h0b, hlenb, hdigb⟩ := canonical64_elim hb
  rw [hexToNat_eq_mapFold, hexToNat_eq_mapFold] at hv
  have hmap : (a.drop 2).map hexDigitVal = (b.drop 2).map hexDigitVal := by
    refine baseFoldl_inj 16 (by norm_num) _ _ ?_ ?_ ?_ hv
    · simp only [List.length_map]; omega
    · intro x hx
      obtain ⟨c, hc, hcx⟩ := List.mem_map.mp hx
      exact hcx ▸ hexDigitVal_lt_of_lower (hdiga c hc)
    · intro x hx
      obtain ⟨c, hc, hcx⟩ := List.mem_map.mp hx
      exact hcx ▸ hexDigitVal_lt_of_lower (hdigb c hc)
  have hbody : a.drop 2 = b.drop 2 :=
    eq_of_map_hexDigitVal_eq _ _ hdiga hdigb hmap
  rw [startsWith0x_shape h0a, startsWith0x_shape h0b, hbody]

theorem insertLess_perm {α : Type} (less : α → α → Bool) (x : α) (l : List α) :
    (insertLess less x l).Perm (x :: l) := by
  induction l with
  | nil => exact List.Perm.refl _
  | cons y ys ih =>
    unfold insertLess
    by_cases h : less y x = true
    · rw [if_pos h]
      exact (ih.cons y).trans (List.Perm.swap x y ys)
    · rw [if_neg h]

theorem sortSlice_perm {α : Type} (less : α → α → Bool) (l : List α) :
    (sortSlice less l).Perm l := by
  induction l with
  | nil => exact List.Perm.refl _
  | cons x xs ih =>
    show (insertLess less x (sortSlice less xs)).Perm (x :: xs)
    exact (insertLess_perm less x (sortSlice less xs)).trans (ih.cons x)

theorem insertLess_pairwise {α : Type} (less : α → α → Bool) (P : α → Prop)
    (hasym : ∀ a b, P a → P b → less a b = true → less b a = false)
    (htrans : ∀ a b c, P a → P b → P c → less b a = false → less c b = false →
      less c a = false)
    {x : α} {l : List α} (hx : P x) (hl : ∀ y ∈ l, P y)
    (h : l.Pairwise (fun a b => less b a = false)) :
    (insertLess less x l).Pairwise (fun a b => less b a = false) := by
  induction l with
  | nil => simp [insertLess]
  | cons y ys ih =>
    rw [List.pairwise_cons] at h
    unfold insertLess
    by_cases hxy : less y x = true
    · rw [if_pos hxy]
      rw [List.pairwise_cons]
      constructor
      · intro z hz
        rcases List.mem_cons.mp ((insertLess_perm less x ys).mem_iff.mp hz) with hz | hz
        · subst hz
          exact hasym y z (hl y (List.mem_cons_self _ _)) hx hxy
        · exact h.1 z hz
      · exact ih (fun y hy => hl y (List.mem_cons_of_mem _ hy)) h.2
    · rw [if_neg hxy]
      rw [List.pairwise_cons]
      refine ⟨?_, List.pairwise_cons.mpr h⟩
      intro z hz
      rcases List.mem_cons.mp hz with hz | hz
      · subst hz
        exact Bool.eq_false_iff.mpr (fun hc => hxy hc)
      · exact htrans x y z hx (hl y (List.mem_cons_self _ _)) (hl z (List.mem_cons_of_mem _ hz))
          (Bool.eq_false_iff.mpr (fun hc => hxy hc)) (h.1 z hz)

theorem sortSlice_pairwise {α : Type} (less : α → α → Bool) (P : α → Prop)
    (hasym : ∀ a b, P a → P b → less a b = true → less b a = false)
    (htrans : ∀ a b c, P a → P b → P c → less b a = false → less c b = false →
      less c a = false)
    {l : List α} (hl : ∀ y ∈ l, P y) :
    (sortSlice less l).Pairwise (fun a b => less b a = false) := by
  induction l with
  | nil => simp [sortSlice]
  | cons x xs ih =>
    show (insertLess less x (sortSlice less xs)).Pairwise _
    refine insertLess_pairwise less P hasym htrans (hl x (List.mem_cons_self _ _)) ?_
      (ih (fun y hy => hl y (List.mem_cons_of_mem _ hy)))
    intro y hy
    exact hl y (List.mem_cons_of_mem _ ((sortSlice_perm less xs).mem_iff.mp hy))

/-- Two ordered permutations of the same multiset coincide when the
order is antisymmetric on the elements involved. -/
theorem eq_of_perm_of_pairwise {α : Type} (R : α → α → Prop) (P : α → Prop)
    (hanti : ∀ a b, P a → P b → R a b → R b a → a = b) :
    ∀ l1 l2 : List α, (∀ x ∈ l1, P x) → l1.Perm l2 →
      l1.Pairwise R → l2.Pairwise R → l1 = l2 := by
  intro l1
  induction l1 with
  | nil =>
    intro l2 _ hperm _ _
    exact (List.Perm.nil_eq hperm).symm ▸ rfl
  | cons a t1 ih =>
    intro l2 hP hperm h1 h2
    cases l2 with
    | nil => exact absurd hperm.symm (by simp)
    | cons b t2 =>
      rw [List.pairwise_cons] at h1 h2
      by_cases hab : a = b
      · subst hab
        rw [ih t2 (fun x hx => hP x (List.mem_cons_of_mem _ hx))
          (hperm.cons_inv) h1.2 h2.2]
      · exfalso
        have hain : a ∈ t2 := by
          have := hperm.mem_iff.mp (List.mem_cons_self a t1)
          rcases List.mem_cons.mp this with h | h
          · exact absurd h hab
          · exact h
        have hbin : b ∈ t1 := by
          have := hperm.mem_iff.mpr (List.mem_cons_self b t2)
          rcases List.mem_cons.mp this with h | h
          · exact absurd h.symm hab
          · exact h
        exact hab (hanti a b (hP a (List.mem_cons_self _ _))
          (hP b (List.mem_cons_of_mem _ hbin)) (h1.1 b hbin) (h2.1 a hain))

theorem goLess_canonical64 {a b : GoString} (ha : Canonical64Lower a = true)
    (hb : Canonical64Lower b = true) :
    goLess (.hexString a) (.hexString b) =
      decide (hexToNat (a.drop 2) < hexToNat (b.drop 2)) :=
  goLess_of_toHex (toHex_hexString_of_canonical (canonical32_of_canonical64 ha))
    (toHex_hexString_of_canonical (canonical32_of_canonical64 hb))

theorem canonLess_asym : ∀ a b : GoString, Canonical64Lower a = true →
    Canonical64Lower b = true →
    goLess (.hexString a) (.hexString b) = true →
    goLess (.hexString b) (.hexString a) = false := by
  intro a b ha hb h
  rw [goLess_canonical64 ha hb] at h
  rw [goLess_canonical64 hb ha]
  simp only [decide_eq_true_eq] at h
  simp only [decide_eq_false_iff_not]
  omega

theorem canonLess_trans : ∀ a b c : GoString, Canonical64Lower a = true →
    Canonical64Lower b = true → Canonical64Lower c = true →
    goLess (.hexString b) (.hexString a) = false →
    goLess (.hexString c) (.hexString b) = false →
    goLess (.hexString c) (.hexString a) = false := by
  intro a b c ha hb hc h1 h2
  rw [goLess_canonical64 hb ha] at h1
  rw [goLess_canonical64 hc hb] at h2
  rw [goLess_canonical64 hc ha]
  simp only [decide_eq_false_iff_not] at h1 h2 ⊢
  omega

theorem canonLess_anti : ∀ a b : GoString, Canonical64Lower a = true →
    Canonical64Lower b = true →
    goLess (.hexString b) (.hexString a) = false →
    goLess (.hexString a) (.hexString b) = false → a = b := by
  intro a b ha hb h1 h2
  rw [goLess_canonical64 hb ha] at h1
  rw [goLess_canonical64 ha hb] at h2
  simp only [decide_eq_false_iff_not] at h1 h2
  exact canonical64_inj ha hb (by omega)

theorem insertLess_map {α β : Type} (f : α → β) (less : β → β → Bool) (x : α) :
    ∀ l : List α,
      (insertLess (fun a b => less (f a) (f b)) x l).map f = insertLess less (f x) (l.map f) := by
  intro l
  induction l with
  | nil => rfl
  | cons y ys ih =>
    simp only [insertLess]
    rw [apply_ite (List.map f)]
    by_cases h : less (f y) (f x) = true
    · rw [if_pos h, if_pos h]
      simp only [List.map_cons, ih]
    · rw [if_neg h, if_neg h]
      simp only [List.map_cons]

theorem sortSlice_map {α β : Type} (f : α → β) (less : β → β → Bool) :
    ∀ l : List α,
      (sortSlice (fun a b => less (f a) (f b)) l).map f = sortSlice less (l.map f) := by
  intro l
  induction l with
  | nil => rfl
  | cons x xs ih =>
    show (insertLess (fun a b => less (f a) (f b)) x
      (sortSlice (fun a b => less (f a) (f b)) xs)).map f = _
    rw [insertLess_map, ih]
    rfl

theorem mapM_toHex_id : ∀ l : List GoString, (∀ s ∈ l, Canonical32 s = true) →
    (l.map BytesLike.hexString).mapM ToHex = some l := by
  intro l
  induction l with
  | nil => intro _; rfl
  | cons s rest ih =>
    intro hc
    rw [List.map_cons, List.mapM_cons,
      toHex_hexString_of_canonical (hc s (List.mem_cons_self _ _)),
      ih (fun t ht => hc t (List.mem_cons_of_mem _ ht))]
    rfl

theorem assignIndexed_ok {T : Type} (treeLen n : Nat) :
    ∀ (entries : List (Nat × HashedValue T)) (acc : List (T × Nat)),
      (∀ e ∈ entries, treeLen - n + e.1 < treeLen) →
      ∃ res, assignIndexed treeLen n entries acc = .ok res := by
  intro entries
  induction entries with
  | nil => intro acc _; exact ⟨acc, rfl⟩
  | cons e rest ih =>
    intro acc hb
    obtain ⟨li, hv⟩ := e
    obtain ⟨res, hres⟩ := ih (acc.set hv.valueIndex (hv.value, treeLen - n + li))
      (fun e he => hb e (List.mem_cons_of_mem _ he))
    refine ⟨res, ?_⟩
    unfold assignIndexed
    rw [if_neg (by have := hb (li, hv) (List.mem_cons_self _ _); simp at this ⊢; omega)]
    exact hres

/-- With sorting enabled and canonical leaf hashes, `PrepareMerkleTree`
builds exactly the tree over the `Compare`-sorted hash list. -/
theorem prepare_builds {T : Type} (values : List T) (options : MerkleTreeOptions)
    (leafHash : T → GoString) (nodeHash : NodeHash)
    (hsort : options.SortLeaves = true)
    (hcanon : ∀ v ∈ values, Canonical64Lower (leafHash v) = true)
    (hne : values ≠ []) :
    ∃ iv, PrepareMerkleTree values options leafHash nodeHash =
      .ok (buildFromLeaves nodeHash
        (sortSlice (fun s t => goLess (.hexString s) (.hexString t))
          (values.map leafHash)), iv) := by
  have hstructs : (((List.range values.length).zip values).map
      (fun iv => HashedValue.mk iv.2 iv.1 (leafHash iv.2))).map (fun hv => hv.hash) =
      values.map leafHash := by
    rw [List.map_map]
    have : ((List.range values.length).zip values).map
        (fun iv => leafHash iv.2) = ((List.range values.length).zip values).map
        (leafHash ∘ Prod.snd) := rfl
    rw [show ((fun hv => hv.hash) ∘ fun iv : Nat × T =>
      HashedValue.mk iv.2 iv.1 (leafHash iv.2)) = leafHash ∘ Prod.snd from rfl]
    rw [← List.map_map leafHash Prod.snd]
    rw [List.map_snd_zip _ _ (by simp)]
  have hsorted_hash : (sortSlice (fun a b : HashedValue T =>
        goLess (.hexString a.hash) (.hexString b.hash))
      (((List.range values.length).zip values).map
        (fun iv => HashedValue.mk iv.2 iv.1 (leafHash iv.2)))).map (fun hv => hv.hash) =
      sortSlice (fun s t => goLess (.hexString s) (.hexString t))
        (values.map leafHash) := by
    rw [sortSlice_map (fun hv : HashedValue T => hv.hash)
      (fun s t => goLess (.hexString s) (.hexString t)), hstructs]
  have hScanon : ∀ s ∈ sortSlice (fun s t => goLess (.hexString s) (.hexString t))
      (values.map leafHash), Canonical32 s = true := by
    intro s hs
    have := (sortSlice_perm _ _).mem_iff.mp hs
    obtain ⟨v, hv, hvs⟩ := List.mem_map.mp this
    exact canonical32_of_canonical64 (hvs ▸ hcanon v hv)
  have hSlen : (sortSlice (fun s t => goLess (.hexString s) (.hexString t))
      (values.map leafHash)).length = values.length := by
    rw [(sortSlice_perm _ _).length_eq, List.length_map]
  have hSne : sortSlice (fun s t => goLess (.hexString s) (.hexString t))
      (values.map leafHash) ≠ [] := by
    intro hcon
    rw [hcon] at hSlen
    cases values with
    | nil => exact hne rfl
    | cons a t => simp at hSlen
  have hmake : MakeMerkleTree ((sortSlice (fun s t => goLess (.hexString s) (.hexString t))
      (values.map leafHash)).map BytesLike.hexString) nodeHash =
      .ok (buildFromLeaves nodeHash (sortSlice
        (fun s t => goLess (.hexString s) (.hexString t)) (values.map leafHash))) := by
    unfold MakeMerkleTree
    rw [if_neg (by simp only [List.isEmpty_eq_true, List.map_eq_nil_iff]; exact hSne),
      mapM_toHex_id _ hScanon]
  have hvlen : 1 ≤ values.length := by
    cases values with
    | nil => exact absurd rfl hne
    | cons a t => simp
  have hsortedlen : (sortSlice (fun a b : HashedValue T =>
      goLess (.hexString a.hash) (.hexString b.hash))
      (((List.range values.length).zip values).map
        (fun iv => HashedValue.mk iv.2 iv.1 (leafHash iv.2)))).length = values.length := by
    rw [(sortSlice_perm _ _).length_eq, List.length_map, List.length_zip,
      List.length_range]
    omega
  have hhashes : (sortSlice (fun a b : HashedValue T =>
        goLess (.hexString a.hash) (.hexString b.hash))
      (((List.range values.length).zip values).map
        (fun iv => HashedValue.mk iv.2 iv.1 (leafHash iv.2)))).map
        (fun hv => BytesLike.hexString hv.hash) =
      (sortSlice (fun s t => goLess (.hexString s) (.hexString t))
        (values.map leafHash)).map BytesLike.hexString := by
    rw [show (fun hv : HashedValue T => BytesLike.hexString hv.hash) =
      BytesLike.hexString ∘ (fun hv : HashedValue T => hv.hash) from rfl]
    rw [← List.map_map BytesLike.hexString (fun hv : HashedValue T => hv.hash)]
    rw [hsorted_hash]
  obtain ⟨res, hres⟩ := assignIndexed_ok
    (buildFromLeaves nodeHash (sortSlice
      (fun s t => goLess (.hexString s) (.hexString t)) (values.map leafHash))).length
    (sortSlice (fun a b : HashedValue T =>
        goLess (.hexString a.hash) (.hexString b.hash))
      (((List.range values.length).zip values).map
        (fun iv => HashedValue.mk iv.2 iv.1 (leafHash iv.2)))).length
    ((List.range (sortSlice (fun a b : HashedValue T =>
        goLess (.hexString a.hash) (.hexString b.hash))
      (((List.range values.length).zip values).map
        (fun iv => HashedValue.mk iv.2 iv.1 (leafHash iv.2)))).length).zip
      (sortSlice (fun a b : HashedValue T =>
        goLess (.hexString a.hash) (.hexString b.hash))
      (((List.range values.length).zip values).map
        (fun iv => HashedValue.mk iv.2 iv.1 (leafHash iv.2)))))
    (values.map (fun v => (v, 0)))
    (by
      intro e he
      have h1 := (List.of_mem_zip he).1
      rw [List.mem_range, hsortedlen] at h1
      rw [buildFromLeaves_length, hSlen, hsortedlen]
      omega)
  refine ⟨res, ?_⟩
  unfold PrepareMerkleTree
  rw [hsort]
  simp only [if_true, hhashes, hmake, hres]

/-- Claim C5: with leaf sorting enabled and canonical leaf hashes, two
`PrepareMerkleTree` builds over permutations of the same value list
produce the same tree (hence identical roots), namely the tree over
the `Compare`-sorted hash list; the placed leaves are that sorted
permutation of the leaf hashes (no later leaf compares below an
earlier one). -/
theorem claim_C5_sorted_determinism {T : Type} (values values' : List T)
    (options : MerkleTreeOptions) (leafHash : T → GoString) (nodeHash : NodeHash)
    (hperm : values.Perm values') (hsort : options.SortLeaves = true)
    (hcanon : ∀ v ∈ values, Canonical64Lower (leafHash v) = true)
    (hne : values ≠ []) :
    ∃ tree iv iv',
      PrepareMerkleTree values options leafHash nodeHash = .ok (tree, iv) ∧
      PrepareMerkleTree values' options leafHash nodeHash = .ok (tree, iv') ∧
      tree = buildFromLeaves nodeHash
        (sortSlice (fun s t => goLess (.hexString s) (.hexString t))
          (values.map leafHash)) ∧
      (sortSlice (fun s t => goLess (.hexString s) (.hexString t))
        (values.map leafHash)).Pairwise
        (fun s t => goLess (.hexString t) (.hexString s) = false) ∧
      (sortSlice (fun s t => goLess (.hexString s) (.hexString t))
        (values.map leafHash)).Perm (values.map leafHash) := by
  have hcanon' : ∀ v ∈ values', Canonical64Lower (leafHash v) = true := by
    intro v hv
    exact hcanon v (hperm.mem_iff.mpr hv)
  have hne' : values' ≠ [] := by
    intro hcon
    subst hcon
    exact hne hperm.eq_nil
  obtain ⟨iv, hiv⟩ := prepare_builds values options leafHash nodeHash hsort hcanon hne
  obtain ⟨iv', hiv'⟩ := prepare_builds values' options leafHash nodeHash hsort hcanon' hne'
  have hPmem : ∀ s ∈ values.map leafHash, Canonical64Lower s = true := by
    intro s hs
    obtain ⟨v, hv, hvs⟩ := List.mem_map.mp hs
    exact hvs ▸ hcanon v hv
  have hPmem' : ∀ s ∈ values'.map leafHash, Canonical64Lower s = true := by
    intro s hs
    obtain ⟨v, hv, hvs⟩ := List.mem_map.mp hs
    exact hvs ▸ hcanon' v hv
  have hkey : sortSlice (fun s t => goLess (.hexString s) (.hexString t))
      (values'.map leafHash) =
      sortSlice (fun s t => goLess (.hexString s) (.hexString t))
        (values.map leafHash) := by
    refine eq_of_perm_of_pairwise
      (fun s t => goLess (.hexString t) (.hexString s) = false)
      (fun s => Canonical64Lower s = true)
      (fun a b hpa hpb h1 h2 => canonLess_anti a b hpa hpb h1 h2) _ _ ?_ ?_ ?_ ?_
    · intro x hx
      exact hPmem' x ((sortSlice_perm _ _).mem_iff.mp hx)
    · exact ((sortSlice_perm _ _).trans ((hperm.map leafHash).symm)).trans
        (sortSlice_perm _ _).symm
    · exact sortSlice_pairwise _ (fun s => Canonical64Lower s = true)
        canonLess_asym canonLess_trans hPmem'
    · exact sortSlice_pairwise _ (fun s => Canonical64Lower s = true)
        canonLess_asym canonLess_trans hPmem
  rw [hkey] at hiv'
  exact ⟨_, iv, iv', hiv, hiv', rfl,
    sortSlice_pairwise _ (fun s => Canonical64Lower s = true)
      canonLess_asym canonLess_trans hPmem,
    sortSlice_perm _ _⟩

/-- Witness for claim C5 on two permutations of a concrete two-value
list. -/
theorem claim_C5_sorted_determinism_witness :
    ∃ tree iv iv',
      PrepareMerkleTree [1, 2] ⟨true⟩ sampleLeafHash constNodeHash = .ok (tree, iv) ∧
      PrepareMerkleTree [2, 1] ⟨true⟩ sampleLeafHash constNodeHash = .ok (tree, iv') ∧
      tree = buildFromLeaves constNodeHash
        (sortSlice (fun s t => goLess (.hexString s) (.hexString t))
          ([1, 2].map sampleLeafHash)) ∧
      (sortSlice (fun s t => goLess (.hexString s) (.hexString t))
        ([1, 2].map sampleLeafHash)).Pairwise
        (fun s t => goLess (.hexString t) (.hexString s) = false) ∧
      (sortSlice (fun s t => goLess (.hexString s) (.hexString t))
        ([1, 2].map sampleLeafHash)).Perm ([1, 2].map sampleLeafHash) := by
  exact claim_C5_sorted_determinism [1, 2] [2, 1] ⟨true⟩ sampleLeafHash constNodeHash
    (by decide) rfl (by decide) (by decide)

end GoMerkle
